import Mathlib

/-!
Verification development for the go-ebakus node: a shallow embedding of the
DPoS system contract (core/vm/contracts.go), the delegate election and header
sealing logic (consensus/dpos/dpos.go), the DelegateItem RLP codec
(core/types/block.go) and the mempool ordering heap (core/types/transaction.go),
together with theorems settling the specified properties.

Addresses (20 bytes in the source) are modelled by their numeric value as `Nat`;
byte-lexicographic order on fixed-width big-endian address bytes coincides with
numeric order. Machine integers (`uint64`) are modelled by `Nat`; every place
where the Go code could wrap or truncate is either guarded in the source or
noted at the definition.
-/

namespace Ebakus

/-- Addresses modelled by their 20-byte big-endian numeric value. -/
abbrev Addr := Nat

/-- common.Address{} — the zero address. -/
def zeroAddr : Addr := 0

/-- types.PrecompliledSystemContract = BytesToAddress([]byte{1,1}) = 0x0101. -/
def precompiledSystemContract : Addr := 257

/-- Witness row (core/vm/contracts.go): Id, Stake, Flags. -/
structure Witness where
  id : Addr
  stake : Nat
  flags : Nat
deriving DecidableEq

/-- ElectEnabledFlag = 1 (bit 0 of Witness.Flags). -/
def ElectEnabledFlag : Nat := 1

/-- Staked row (core/types/ebakus.go): Id (owner), Amount. -/
structure Staked where
  id : Addr
  amount : Nat
deriving DecidableEq

/-- Claimable row (core/vm/contracts.go). The 28-byte Id is
owner-address bytes followed by the little-endian uint64 timestamp; we keep
the two id components (`idOwner`, `idTime`) next to the stored Amount and
Timestamp columns. -/
structure Claimable where
  idOwner : Addr
  idTime : Nat
  amount : Nat
  timestamp : Nat
deriving DecidableEq

/-- The composite 28-byte claimable id, as its two components. -/
def Claimable.cid (c : Claimable) : Addr × Nat := (c.idOwner, c.idTime)

/-- GetClaimableId(from, timestamp): owner bytes followed by LE timestamp. -/
def getClaimableId (caller : Addr) (timestamp : Nat) : Addr × Nat := (caller, timestamp)

/-- Delegation row id: the pair of source address and witness address
(40 bytes in the source). -/
abbrev DelegationId := Addr × Addr

/-- The ebakusdb tables and scalar key used by the system contract.
`systemStake` models the raw value stored under SystemStakeDBKey
(`none` when db.Get reports not-found). -/
structure EbakusDb where
  witnesses : List Witness
  staked : List Staked
  claimables : List Claimable
  delegations : List DelegationId
  systemStake : Option Nat
deriving DecidableEq

/-- Upsert keyed by primary id (ebakusdb InsertObj). -/
def upsertBy {α β : Type} [DecidableEq β] (idOf : α → β) (tbl : List α) (x : α) : List α :=
  if tbl.any (fun y => decide (idOf y = idOf x)) then
    tbl.map (fun y => if idOf y = idOf x then x else y)
  else
    tbl ++ [x]

/-- Delete by primary id (ebakusdb DeleteObj). -/
def deleteBy {α β : Type} [DecidableEq β] (idOf : α → β) (tbl : List α) (i : β) : List α :=
  tbl.filter (fun y => decide (idOf y ≠ i))

/-- The eight little-endian bytes of a uint64 timestamp
(binary.LittleEndian.PutUint64 in GetClaimableId). -/
def leBytes8 (t : Nat) : List Nat :=
  [t % 256, t / 256 % 256, t / 256 ^ 2 % 256, t / 256 ^ 3 % 256,
   t / 256 ^ 4 % 256, t / 256 ^ 5 % 256, t / 256 ^ 6 % 256, t / 256 ^ 7 % 256]

/-- Strict lexicographic order on byte lists (the ebakusdb key order). -/
def lexLt : List Nat → List Nat → Bool
  | [], [] => false
  | [], _ :: _ => true
  | _ :: _, [] => false
  | a :: as, b :: bs => if a < b then true else if b < a then false else lexLt as bs

/-- Key order of two claimable rows: owner bytes (numeric order) first, then
the little-endian timestamp bytes lexicographically. -/
def claimIdLt (a b : Claimable) : Bool :=
  decide (a.idOwner < b.idOwner) ||
    (decide (a.idOwner = b.idOwner) && lexLt (leBytes8 a.idTime) (leBytes8 b.idTime))

/-- Insertion into a list sorted by a strict comparator. -/
def insertSorted {α : Type} (lt : α → α → Bool) (x : α) : List α → List α
  | [] => [x]
  | y :: ys => if lt x y then x :: y :: ys else y :: insertSorted lt x ys

/-- Insertion sort: models the key-ordered iteration of an ebakusdb Select. -/
def sortByLt {α : Type} (lt : α → α → Bool) (l : List α) : List α :=
  l.foldr (insertSorted lt) []

/-- Select(ClaimableTable, Id LIKE caller): caller's rows in ascending key
order. -/
def claimablesOfAsc (db : EbakusDb) (caller : Addr) : List Claimable :=
  sortByLt claimIdLt (db.claimables.filter (fun c => decide (c.idOwner = caller)))

/-- Select(ClaimableTable, Id LIKE caller, Id DESC): caller's rows in
descending key order (the order used by stake). -/
def claimablesOfDesc (db : EbakusDb) (caller : Addr) : List Claimable :=
  sortByLt (fun a b => claimIdLt b a) (db.claimables.filter (fun c => decide (c.idOwner = caller)))

/-- Key order on delegation ids: byte order of from-address then witness. -/
def delegIdLt (a b : DelegationId) : Bool :=
  decide (a.1 < b.1) || (decide (a.1 = b.1) && decide (a.2 < b.2))

/-- Select(DelegationTable, Id LIKE caller): caller's delegations in key
order. -/
def delegationsOf (db : EbakusDb) (caller : Addr) : List DelegationId :=
  sortByLt delegIdLt (db.delegations.filter (fun d => decide (d.1 = caller)))

/-- Select(WitnessesTable, Id LIKE a) followed by one iter.Next: the row with
this id (ids are unique primary keys). -/
def findWitness (db : EbakusDb) (a : Addr) : Option Witness :=
  db.witnesses.find? (fun w => decide (w.id = a))

/-- Select(StakedTable, Id LIKE a) followed by one iter.Next. -/
def findStaked (db : EbakusDb) (a : Addr) : Option Staked :=
  db.staked.find? (fun s => decide (s.id = a))

/-- The error values produced by the system contract
(core/vm/contracts.go). -/
inductive SysErr where
  | generic
  | stakeMalformed
  | stakeNotEnoughBalance
  | unstakeMalformed
  | unstakeTooManyClaimable
  | unstakeNotEnoughStaked
  | voteMalformed
  | voteAddressIsNotWitness
  | electEnableMalformed
  | insufficientBalance
deriving DecidableEq

/-- maxClaimableEntries = 5. -/
def maxClaimableEntries : Nat := 5

/-- unstakeVestingPeriod = 60*60*24*3 seconds. -/
def unstakeVestingPeriod : Nat := 60 * 60 * 24 * 3

/-- precisionFactor = 10^(18-4): wei per staking unit. -/
def precisionFactor : Nat := 10 ^ 14

/-- The vote helper (contracts.go:388): for each address, look the witness
up (error if absent), add `amount` to its stake, and insert the delegation
row `caller∥address`. -/
def voteRun (db : EbakusDb) (caller : Addr) (addrs : List Addr) (amount : Nat) :
    Except SysErr EbakusDb :=
  match addrs with
  | [] => .ok db
  | a :: rest =>
    match findWitness db a with
    | none => .error .voteAddressIsNotWitness
    | some w =>
      let w := { w with stake := w.stake + amount }
      let db := { db with witnesses := upsertBy Witness.id db.witnesses w }
      let db := { db with delegations := upsertBy id db.delegations (caller, a) }
      voteRun db caller rest amount

/-- First pass of the unvote helper (contracts.go:425): for each delegation of
the caller, look up the referenced witness (error if absent or its stake is
less than `amount`) and decrement its stake. -/
def unvoteWitnessPass (db : EbakusDb) (amount : Nat) :
    List DelegationId → Except SysErr EbakusDb
  | [] => .ok db
  | d :: rest =>
    match findWitness db d.2 with
    | none => .error .generic
    | some w =>
      if w.stake < amount then .error .generic
      else
        let w := { w with stake := w.stake - amount }
        unvoteWitnessPass { db with witnesses := upsertBy Witness.id db.witnesses w } amount rest

/-- The unvote helper (contracts.go:425): decrement every delegated witness by
`amount`, then delete the caller's delegation rows, returning the witness
addresses that were delegated to. -/
def unvoteRun (db : EbakusDb) (caller : Addr) (amount : Nat) :
    Except SysErr (List Addr × EbakusDb) := do
  let ds := delegationsOf db caller
  let db ← unvoteWitnessPass db amount ds
  let db := { db with delegations := ds.foldl (fun t d => deleteBy id t d) db.delegations }
  .ok (ds.map (fun d => d.2), db)

/-- The EVM-visible state the system contract touches: the ebakusdb snapshot
and the native wei balances (evm.StateDB). -/
structure EvmState where
  db : EbakusDb
  bal : Addr → Nat

/-- evm.Transfer: subtract the wei amount from `a`, then add it to `b`
(callers guard with CanTransfer, so the Nat subtraction never truncates on
executed paths). -/
def transferBal (s : EvmState) (a b : Addr) (v : Nat) : EvmState :=
  let bal1 := fun x => if x = a then s.bal a - v else s.bal x
  let bal2 := fun x => if x = b then bal1 b + v else bal1 x
  { s with bal := bal2 }

/-- systemContract.claim (contracts.go:921): delete every matured claimable of
the caller and transfer the accumulated amount (in wei) from the system
contract address back to the caller. -/
def claimRun (s : EvmState) (caller : Addr) (now : Nat) : Except SysErr EvmState :=
  let cs := claimablesOfAsc s.db caller
  let matured := cs.filter (fun c => decide (c.timestamp ≤ now))
  let claimableAmount := (matured.map Claimable.amount).sum
  let db := { s.db with
    claimables := matured.foldl (fun t c => deleteBy Claimable.cid t c.cid) s.db.claimables }
  if claimableAmount = 0 then
    .ok { s with db := db }
  else
    let wei := claimableAmount * precisionFactor
    if s.bal precompiledSystemContract < wei then .error .insufficientBalance
    else .ok (transferBal { s with db := db } precompiledSystemContract caller wei)

/-- The claimable-consumption loop of systemContract.stake (contracts.go:684):
walk the caller's claimables in descending id order; consume a row whole when
the remaining amount covers it (marking it for deletion), otherwise decrement
it in place; stop once the credited amount reaches `amount`. Returns the
credited amount, the rows marked for deletion, and the claimable table with
in-place decrements applied. -/
def consumeClaimables (amount : Nat) :
    List Claimable → Nat → List Claimable → List Claimable →
    Nat × List Claimable × List Claimable
  | [], acc, toDelete, tbl => (acc, toDelete, tbl)
  | c :: rest, acc, toDelete, tbl =>
    if amount - acc ≥ c.amount then
      let acc := acc + c.amount
      let toDelete := toDelete ++ [c]
      if acc = amount then (acc, toDelete, tbl)
      else consumeClaimables amount rest acc toDelete tbl
    else
      let c := { c with amount := c.amount - (amount - acc) }
      (amount, toDelete, upsertBy Claimable.cid tbl c)

/-- The staked-row half of systemContract.stake (contracts.go:750): if the
caller already has a Staked row, unvote at the old amount and re-vote the old
delegations at the increased amount; otherwise the same with an old amount of
zero and a fresh row; in both cases upsert the Staked row last. -/
def stakeDelegationsStep (db : EbakusDb) (caller amount : Nat) : Except SysErr EbakusDb :=
  match findStaked db caller with
  | some staked => do
    let (delegated, db) ←
      (unvoteRun db caller staked.amount).mapError (fun _ => SysErr.generic)
    let staked := { staked with amount := staked.amount + amount }
    let db ← (voteRun db caller delegated staked.amount).mapError (fun _ => SysErr.generic)
    pure { db with staked := upsertBy Staked.id db.staked staked }
  | none => do
    let (delegated, db) ←
      (unvoteRun db caller 0).mapError (fun _ => SysErr.generic)
    let staked : Staked := ⟨caller, amount⟩
    let db ← (voteRun db caller delegated staked.amount).mapError (fun _ => SysErr.generic)
    pure { db with staked := upsertBy Staked.id db.staked staked }

/-- systemContract.stake (contracts.go:652): refuse amount zero; credit
outstanding claimables; check the residual against balance/precisionFactor
(NotEnoughBalance on failure); otherwise delete the consumed claimables,
bump SystemStake, re-establish the staked row and its delegations at the new
total, and transfer the residual in wei to the system contract address. -/
def stakeRun (s : EvmState) (caller : Addr) (amount : Nat) : Except SysErr EvmState := do
  if amount = 0 then throw .generic
  let cs := claimablesOfDesc s.db caller
  let (claimableAmount, toDelete, tbl) := consumeClaimables amount cs 0 [] s.db.claimables
  let amountToBeTransfered := amount - claimableAmount
  let balance := s.bal caller / precisionFactor
  if ¬ (amountToBeTransfered ≤ balance) then throw .stakeNotEnoughBalance
  let db := { s.db with
    claimables := toDelete.foldl (fun t (c : Claimable) => deleteBy Claimable.cid t c.cid) tbl }
  let db := { db with systemStake := some (amount + db.systemStake.getD 0) }
  let db ← stakeDelegationsStep db caller amount
  let wei := amountToBeTransfered * precisionFactor
  if s.bal caller < wei then throw .insufficientBalance
  pure (transferBal { s with db := db } caller precompiledSystemContract wei)

/-- The guard loop of systemContract.unstake (contracts.go:837): iterate the
caller's claimables counting rows; a row whose id equals the would-be new
claimable id fails with the generic error; reaching maxClaimableEntries fails
with TooManyClaimable. -/
def unstakeGuard (newId : Addr × Nat) : List Claimable → Nat → Option SysErr
  | [], _ => none
  | c :: rest, count =>
    let count := count + 1
    if c.cid = newId then some .generic
    else if count ≥ maxClaimableEntries then some .unstakeTooManyClaimable
    else unstakeGuard newId rest count

/-- systemContract.unstake (contracts.go:819): guard the claimable count and
same-block duplicate; require amount ≤ the caller's staked amount (deleting
the row when equal, decrementing otherwise); insert the vesting claimable;
re-delegate at the new total; decrement SystemStake (generic error if absent
or smaller than amount). -/
def unstakeRun (s : EvmState) (caller : Addr) (amount now : Nat) : Except SysErr EvmState := do
  let timestamp := now + unstakeVestingPeriod
  let newClaimableEntryId := getClaimableId caller timestamp
  match unstakeGuard newClaimableEntryId (claimablesOfAsc s.db caller) 0 with
  | some e => throw e
  | none => pure ()
  let staked ←
    match findStaked s.db caller with
    | none => throw SysErr.generic
    | some st => pure st
  let oldStake := staked.amount
  let (newStake, db) ←
    if amount > staked.amount then throw SysErr.unstakeNotEnoughStaked
    else if amount = staked.amount then
      pure (0, { s.db with staked := deleteBy Staked.id s.db.staked staked.id })
    else
      let staked := { staked with amount := staked.amount - amount }
      pure (staked.amount, { s.db with staked := upsertBy Staked.id s.db.staked staked })
  let newClaimableEntry : Claimable :=
    { idOwner := caller, idTime := timestamp, amount := amount, timestamp := timestamp }
  let db := { db with claimables := upsertBy Claimable.cid db.claimables newClaimableEntry }
  let (delegated, db) ← (unvoteRun db caller oldStake).mapError (fun _ => SysErr.generic)
  let db ← (voteRun db caller delegated newStake).mapError (fun _ => SysErr.generic)
  let systemStaked ←
    match db.systemStake with
    | none => throw SysErr.generic
    | some v => pure v
  if systemStaked < amount then throw SysErr.generic
  pure { s with db := { db with systemStake := some (systemStaked - amount) } }

/-- systemContract.vote (contracts.go:970): requires a staked row; removes all
existing delegations and re-delegates the full staked amount to the given
addresses. Helper failures surface as the generic error. -/
def sysVoteRun (s : EvmState) (caller : Addr) (addrs : List Addr) : Except SysErr EvmState := do
  let staked ←
    match findStaked s.db caller with
    | none => throw SysErr.generic
    | some st => pure st
  let (_, db) ← (unvoteRun s.db caller staked.amount).mapError (fun _ => SysErr.generic)
  let db ← (voteRun db caller addrs staked.amount).mapError (fun _ => SysErr.generic)
  pure { s with db := db }

/-- systemContract.unvote (contracts.go:1001): requires a staked row; removes
all delegations of the caller. -/
def sysUnvoteRun (s : EvmState) (caller : Addr) : Except SysErr EvmState := do
  let staked ←
    match findStaked s.db caller with
    | none => throw SysErr.generic
    | some st => pure st
  let (_, db) ← (unvoteRun s.db caller staked.amount).mapError (fun _ => SysErr.generic)
  pure { s with db := db }

/-- systemContract.electEnable (contracts.go:1028): fetch or create the
caller's witness row and set or clear bit 0 of its flags. -/
def electEnableRun (s : EvmState) (caller : Addr) (enable : Bool) : Except SysErr EvmState :=
  let witness := (findWitness s.db caller).getD { id := caller, stake := 0, flags := 0 }
  let witness :=
    if enable then { witness with flags := witness.flags ||| ElectEnabledFlag }
    else { witness with flags := 2 * (witness.flags / 2) }
  .ok { s with db := { s.db with witnesses := upsertBy Witness.id s.db.witnesses witness } }

/-- A decoded call to one of the mutating system-contract methods, together
with the block time (evm.Time) at which it runs. The ABI selector/argument
decoding of systemContract.Run is not modelled; these are the post-decoding
dispatch cases. -/
inductive Op where
  | stakeOp (caller amount now : Nat)
  | unstakeOp (caller amount now : Nat)
  | claimOp (caller now : Nat)
  | voteOp (caller : Nat) (addrs : List Nat)
  | unvoteOp (caller : Nat)
  | electOp (caller : Nat) (enable : Bool)
deriving DecidableEq

/-- systemContract.Run dispatch (contracts.go:1139) for the mutating methods.
The stake command first runs claim for the caller, then stake. -/
def runOp (s : EvmState) : Op → Except SysErr EvmState
  | .stakeOp caller amount now => do
    let s ← claimRun s caller now
    stakeRun s caller amount
  | .unstakeOp caller amount now => unstakeRun s caller amount now
  | .claimOp caller now => claimRun s caller now
  | .voteOp caller addrs => sysVoteRun s caller addrs
  | .unvoteOp caller => sysUnvoteRun s caller
  | .electOp caller enable => electEnableRun s caller enable

/-- Modelled from the spec: the EVM call wrapper and the block producer
(core/vm/evm.go, not under src/; miner/worker.go commitTransaction) apply a
system-contract call against a sub-snapshot and discard every mutation when
the call returns an error, so a failed operation leaves the visible store and
balances unchanged. -/
def applyCall (s : EvmState) (r : Except SysErr EvmState) : EvmState :=
  match r with
  | .ok s2 => s2
  | .error _ => s

/-- One system-contract call as seen from outside: the call runs against a
sub-snapshot and its mutations are visible only when it succeeds. -/
def stepOp (s : EvmState) (op : Op) : EvmState :=
  applyCall s (runOp s op)

/-- SystemContractSetupDB (contracts.go:310): genesis tables hold a single
elect-enabled zero-stake witness row for the genesis address and nothing
else; the SystemStake scalar key is not yet set. -/
def genesisDb (g : Addr) : EbakusDb :=
  { witnesses := [{ id := g, stake := 0, flags := ElectEnabledFlag }]
    staked := []
    claimables := []
    delegations := []
    systemStake := none }

/-- The chain state at genesis: genesis tables plus arbitrary initial native
balances. -/
def genesisState (g : Addr) (bal0 : Addr → Nat) : EvmState :=
  { db := genesisDb g, bal := bal0 }

/-- The store state reached by running a sequence of system-contract calls
from genesis (failed calls leave the state unchanged). -/
def runOps (g : Addr) (bal0 : Addr → Nat) (ops : List Op) : EvmState :=
  ops.foldl stepOp (genesisState g bal0)

/-- The amount of the Staked row of `o`, zero when the row is absent
(the contribution a delegation of `o` makes to a witness stake). -/
def stakedAmount (st : List Staked) (o : Addr) : Nat :=
  match st.find? (fun r => decide (r.id = o)) with
  | some r => r.amount
  | none => 0

/-- Σ { Staked[o].amount : Delegation(o, w) present } — the delegated stake a
witness row should carry. -/
def sumDelegatedStake (st : List Staked) (dl : List DelegationId) (w : Addr) : Nat :=
  ((dl.filter (fun d => decide (d.2 = w))).map (fun d => stakedAmount st d.1)).sum

/-- Invariant P2: every witness row carries exactly the sum of the staked
amounts of its delegators. -/
def P2 (db : EbakusDb) : Prop :=
  ∀ w ∈ db.witnesses, w.stake = sumDelegatedStake db.staked db.delegations w.id

/-- The number of Claimable rows of one owner. -/
def claimableCount (db : EbakusDb) (o : Addr) : Nat :=
  (db.claimables.filter (fun c => decide (c.idOwner = o))).length

/-- Invariant P3: at most maxClaimableEntries claimable rows per owner. -/
def P3 (db : EbakusDb) : Prop :=
  ∀ o : Addr, claimableCount db o ≤ maxClaimableEntries

/-- A vote call with a duplicate-free address list (any other op qualifies
unconditionally). -/
def VoteNodup : Op → Prop
  | .voteOp _ addrs => addrs.Nodup
  | _ => True

/-! ### Basic lemmas about the table helpers and the contract runs -/

theorem voteRun_tables (db : EbakusDb) (caller : Addr) (addrs : List Addr) (amount : Nat)
    (db' : EbakusDb) (h : voteRun db caller addrs amount = .ok db') :
    db'.staked = db.staked ∧ db'.claimables = db.claimables ∧
      db'.systemStake = db.systemStake := by
  induction addrs generalizing db with
  | nil =>
    simp [voteRun] at h
    simp [← h]
  | cons a rest ih =>
    rw [voteRun] at h
    cases hw : findWitness db a with
    | none => simp [hw] at h
    | some w =>
      simp only [hw] at h
      have h3 := ih _ h
      exact h3

theorem unvoteWitnessPass_tables (db : EbakusDb) (amount : Nat) (ds : List DelegationId)
    (db' : EbakusDb) (h : unvoteWitnessPass db amount ds = .ok db') :
    db'.staked = db.staked ∧ db'.claimables = db.claimables ∧
      db'.systemStake = db.systemStake ∧ db'.delegations = db.delegations := by
  induction ds generalizing db with
  | nil =>
    simp [unvoteWitnessPass] at h
    simp [← h]
  | cons d rest ih =>
    rw [unvoteWitnessPass] at h
    cases hw : findWitness db d.2 with
    | none => simp [hw] at h
    | some w =>
      simp only [hw] at h
      by_cases hlt : w.stake < amount
      · simp [hlt] at h
      · simp only [if_neg hlt] at h
        have h3 := ih _ h
        exact h3

theorem unvoteRun_tables (db : EbakusDb) (caller : Addr) (amount : Nat)
    (res : List Addr × EbakusDb) (h : unvoteRun db caller amount = .ok res) :
    res.2.staked = db.staked ∧ res.2.claimables = db.claimables ∧
      res.2.systemStake = db.systemStake := by
  rw [unvoteRun] at h
  cases hp : unvoteWitnessPass db amount (delegationsOf db caller) with
  | error e => simp [hp, bind, Except.bind] at h
  | ok dbp =>
    have := unvoteWitnessPass_tables db amount (delegationsOf db caller) dbp hp
    simp [hp, bind, Except.bind] at h
    simp [← h, this.1, this.2.1, this.2.2.1]

theorem find?_deleteBy {α β : Type} [DecidableEq β] (idOf : α → β) (tbl : List α) (i : β) :
    (deleteBy idOf tbl i).find? (fun y => decide (idOf y = i)) = none := by
  rw [List.find?_eq_none]
  intro x hx
  have := List.of_mem_filter hx
  simpa using this

/-! ### C6 — stake with amount zero -/

/-- A small concrete chain state used by counterexamples: genesis with
genesis witness 7 and no native balances. -/
def st0 : EvmState := genesisState 7 (fun _ => 0)

/-- C6 (counterexample): stake with amount 0 at a concrete state fails with
the generic system-contract error, which is not the Malformed error; the
claim that the failure is the Malformed error is false. -/
theorem stake_zero_amount_cex :
    stakeRun st0 10 0 = .error .generic ∧ SysErr.generic ≠ SysErr.stakeMalformed :=
  ⟨rfl, by decide⟩

/-- C6 (amended): for every caller and store state, stake invoked with
amount 0 fails, and the error is the generic system-contract error
(errSystemContractError), not the Malformed one. -/
theorem stake_zero_amount_generic (s : EvmState) (caller : Addr) :
    stakeRun s caller 0 = .error .generic := rfl

/-! ### C10 — vote/unvote without a Staked row -/

/-- C10: a caller with no Staked row gets the generic system-contract error
from both vote (with any address list) and unvote, and the visible store is
unchanged; neither call succeeds as a no-op. -/
theorem vote_unvote_without_staked_row (s : EvmState) (caller : Addr) (addrs : List Addr)
    (h : findStaked s.db caller = none) :
    sysVoteRun s caller addrs = .error .generic ∧
      sysUnvoteRun s caller = .error .generic ∧
      stepOp s (.voteOp caller addrs) = s ∧
      stepOp s (.unvoteOp caller) = s := by
  have hv : sysVoteRun s caller addrs = .error .generic := by
    rw [sysVoteRun]
    simp only [h]
    rfl
  have hu : sysUnvoteRun s caller = .error .generic := by
    rw [sysUnvoteRun]
    simp only [h]
    rfl
  exact ⟨hv, hu, by simp [stepOp, runOp, hv, applyCall], by simp [stepOp, runOp, hu, applyCall]⟩

/-- C10 witness: the concrete genesis state has no Staked row for caller 10,
and both calls fail there leaving the state unchanged. -/
theorem vote_unvote_without_staked_row_witness :
    sysVoteRun st0 10 [7] = .error .generic ∧
      sysUnvoteRun st0 10 = .error .generic ∧
      stepOp st0 (.voteOp 10 [7]) = st0 ∧
      stepOp st0 (.unvoteOp 10) = st0 :=
  vote_unvote_without_staked_row st0 10 [7] rfl

/-! ### Reduction lemmas for the Except monad -/

theorem exceptBindOk {ε α β : Type} (a : α) (k : α → Except ε β) :
    (Except.ok a >>= k) = k a := rfl

theorem exceptBindErr {ε α β : Type} (e : ε) (k : α → Except ε β) :
    (Except.error e >>= k : Except ε β) = Except.error e := rfl

theorem exceptPureBind {ε α β : Type} (a : α) (k : α → Except ε β) :
    ((pure a : Except ε α) >>= k) = k a := rfl

theorem exceptMapErrorOk {ε ε2 α : Type} (f : ε → ε2) (a : α) :
    Except.mapError f (Except.ok a) = Except.ok a := rfl

theorem exceptMapErrorErr {ε ε2 α : Type} (f : ε → ε2) (e : ε) :
    (Except.mapError f (Except.error e) : Except ε2 α) = Except.error (f e) := rfl

theorem exceptMapOk {ε α β : Type} (f : α → β) (a : α) :
    (f <$> (Except.ok a : Except ε α)) = Except.ok (f a) := rfl

theorem exceptMapErr {ε α β : Type} (f : α → β) (e : ε) :
    (f <$> (Except.error e : Except ε α) : Except ε β) = Except.error e := rfl

theorem exceptThrowEq {ε α : Type} (e : ε) :
    (throw e : Except ε α) = Except.error e := rfl

theorem exceptPureEq {ε α : Type} (a : α) :
    (pure a : Except ε α) = Except.ok a := rfl

/-! ### More table lemmas -/

theorem find?_upsertBy {α β : Type} [DecidableEq β] (idOf : α → β) (tbl : List α) (x : α)
    (h : ∃ r ∈ tbl, idOf r = idOf x) :
    (upsertBy idOf tbl x).find? (fun y => decide (idOf y = idOf x)) = some x := by
  have hany : tbl.any (fun y => decide (idOf y = idOf x)) = true := by
    obtain ⟨r, hr, he⟩ := h
    exact List.any_eq_true.mpr ⟨r, hr, by simpa using he⟩
  rw [upsertBy, if_pos hany]
  clear h
  induction tbl with
  | nil => simp at hany
  | cons y ys ih =>
    by_cases hy : idOf y = idOf x
    · simp [List.find?, hy]
    · have hany2 : ys.any (fun y => decide (idOf y = idOf x)) = true := by
        simp only [List.any_cons, Bool.or_eq_true] at hany
        rcases hany with h1 | h2
        · simp [hy] at h1
        · exact h2
      simp only [List.map_cons, List.find?, if_neg hy]
      rw [decide_eq_false hy]
      exact ih hany2

/-! ### Inversion lemmas for Except chains -/

theorem exceptBindOkIff {ε α β : Type} {x : Except ε α} {k : α → Except ε β} {b : β} :
    (x >>= k) = Except.ok b ↔ ∃ a, x = Except.ok a ∧ k a = Except.ok b := by
  cases x with
  | ok a => simp [exceptBindOk]
  | error e => simp [exceptBindErr]

theorem exceptMapErrorOkIff {ε ε2 α : Type} {f : ε → ε2} {x : Except ε α} {a : α} :
    Except.mapError f x = Except.ok a ↔ x = Except.ok a := by
  cases x with
  | ok b => simp [exceptMapErrorOk]
  | error e => simp [exceptMapErrorErr]

theorem exceptMapOkIff {ε α β : Type} {f : α → β} {x : Except ε α} {b : β} :
    (f <$> x) = Except.ok b ↔ ∃ a, x = Except.ok a ∧ f a = b := by
  cases x with
  | ok a => simp [exceptMapOk]
  | error e => simp [exceptMapErr]

/-! ### C4 — unstake amount semantics -/

/-- C4: for a caller that passes the claimable-count and duplicate-timestamp
guards and holds a Staked row of amount `a`: unstake of more than `a` fails
with NotEnoughStaked; a successful unstake of exactly `a` deletes the Staked
row and a successful unstake of less decrements it to `a - amount`; and every
success finds SystemStake at least `amount` and decrements it by exactly
`amount` (so a would-be underflow can never succeed). -/
theorem unstake_amount_semantics (s : EvmState) (caller : Addr) (a amount now : Nat)
    (hguard : unstakeGuard (getClaimableId caller (now + unstakeVestingPeriod))
      (claimablesOfAsc s.db caller) 0 = none)
    (hst : findStaked s.db caller = some ⟨caller, a⟩) :
    (amount > a → unstakeRun s caller amount now = .error .unstakeNotEnoughStaked) ∧
    (∀ s2, unstakeRun s caller amount now = .ok s2 →
      (if amount = a then findStaked s2.db caller = none
       else findStaked s2.db caller = some ⟨caller, a - amount⟩) ∧
      ∃ ss, s.db.systemStake = some ss ∧ amount ≤ ss ∧
        s2.db.systemStake = some (ss - amount)) := by
  rw [unstakeRun]
  simp only [hguard, hst, exceptPureBind, exceptThrowEq, exceptBindErr, exceptBindOk]
  constructor
  · intro hgt
    simp only [if_pos hgt]
  · intro s2 hok
    by_cases hgt : amount > a
    · rw [if_pos hgt] at hok
      simp [exceptThrowEq, exceptBindErr] at hok
    · rw [if_neg hgt] at hok
      by_cases heq : amount = a
      · rw [if_pos heq] at hok
        simp only [exceptBindOkIff, exceptMapErrorOkIff] at hok
        obtain ⟨⟨delegated, db3⟩, hu, hok2⟩ := hok
        obtain ⟨db4, hv, hok3⟩ := hok2
        have hu3 := unvoteRun_tables _ caller _ _ hu
        have hv4 := voteRun_tables db3 caller delegated _ db4 hv
        cases hs4 : db4.systemStake with
        | none =>
          simp only [hs4] at hok3
          exact absurd hok3 (by simp)
        | some ss =>
          simp only [hs4] at hok3
          by_cases hlt : ss < amount
          · rw [if_pos hlt] at hok3
            exact absurd hok3 (by simp)
          · rw [if_neg hlt, exceptPureEq, Except.ok.injEq] at hok3
            have hs2 : s2 = { s with db := { db4 with systemStake := some (ss - amount) } } :=
              hok3.symm
            have hstk : db4.staked = deleteBy Staked.id s.db.staked caller := by
              rw [hv4.1, hu3.1]
            have hsys : s.db.systemStake = some ss := by
              rw [← hs4, hv4.2.2, hu3.2.2]
            constructor
            · simp only [if_pos heq, hs2, findStaked, hstk]
              exact find?_deleteBy Staked.id s.db.staked caller
            · exact ⟨ss, hsys, Nat.le_of_not_lt hlt, by simp [hs2]⟩
      · rw [if_neg heq] at hok
        simp only [exceptBindOkIff, exceptMapErrorOkIff] at hok
        obtain ⟨⟨delegated, db3⟩, hu, hok2⟩ := hok
        obtain ⟨db4, hv, hok3⟩ := hok2
        have hu3 := unvoteRun_tables _ caller _ _ hu
        have hv4 := voteRun_tables db3 caller delegated _ db4 hv
        cases hs4 : db4.systemStake with
        | none =>
          simp only [hs4] at hok3
          exact absurd hok3 (by simp)
        | some ss =>
          simp only [hs4] at hok3
          by_cases hlt : ss < amount
          · rw [if_pos hlt] at hok3
            exact absurd hok3 (by simp)
          · rw [if_neg hlt, exceptPureEq, Except.ok.injEq] at hok3
            have hs2 : s2 = { s with db := { db4 with systemStake := some (ss - amount) } } :=
              hok3.symm
            have hstk : db4.staked = upsertBy Staked.id s.db.staked ⟨caller, a - amount⟩ := by
              rw [hv4.1, hu3.1]
            have hsys : s.db.systemStake = some ss := by
              rw [← hs4, hv4.2.2, hu3.2.2]
            constructor
            · simp only [if_neg heq, hs2, findStaked, hstk]
              have hmem : ∃ r ∈ s.db.staked,
                  Staked.id r = Staked.id (⟨caller, a - amount⟩ : Staked) := by
                exact ⟨⟨caller, a⟩, List.mem_of_find?_eq_some hst, rfl⟩
              have hfu := find?_upsertBy Staked.id s.db.staked ⟨caller, a - amount⟩ hmem
              simpa [Staked.id] using hfu
            · exact ⟨ss, hsys, Nat.le_of_not_lt hlt, by simp [hs2]⟩

/-! ### Sorting permutation lemmas -/

theorem insertSorted_perm {α : Type} (lt : α → α → Bool) (x : α) (l : List α) :
    (insertSorted lt x l).Perm (x :: l) := by
  induction l with
  | nil => simp [insertSorted]
  | cons y ys ih =>
    rw [insertSorted]
    by_cases h : lt x y
    · simp [h]
    · simp only [if_neg h]
      exact (List.Perm.cons y ih).trans (List.Perm.swap x y ys)

theorem sortByLt_perm {α : Type} (lt : α → α → Bool) (l : List α) :
    (sortByLt lt l).Perm l := by
  induction l with
  | nil => simp [sortByLt]
  | cons y ys ih =>
    have h1 : sortByLt lt (y :: ys) = insertSorted lt y (sortByLt lt ys) := rfl
    rw [h1]
    exact (insertSorted_perm lt y (sortByLt lt ys)).trans (List.Perm.cons y ih)

theorem sortByLt_mem {α : Type} (lt : α → α → Bool) (l : List α) (x : α) :
    x ∈ sortByLt lt l ↔ x ∈ l :=
  (sortByLt_perm lt l).mem_iff

theorem sortByLt_length {α : Type} (lt : α → α → Bool) (l : List α) :
    (sortByLt lt l).length = l.length :=
  (sortByLt_perm lt l).length_eq

/-! ### Claimable counting lemmas -/

/-- Number of rows of one owner in a claimable table. -/
def listCount (l : List Claimable) (o : Addr) : Nat :=
  (l.filter (fun c => decide (c.idOwner = o))).length

theorem listCount_deleteBy_le (l : List Claimable) (i : Addr × Nat) (o : Addr) :
    listCount (deleteBy Claimable.cid l i) o ≤ listCount l o := by
  unfold listCount deleteBy
  exact ((List.filter_sublist l).filter _).length_le

theorem listCount_foldl_deleteBy_le (cs : List Claimable) (l : List Claimable) (o : Addr) :
    listCount (cs.foldl (fun t c => deleteBy Claimable.cid t c.cid) l) o ≤ listCount l o := by
  induction cs generalizing l with
  | nil => simp
  | cons c rest ih =>
    simp only [List.foldl_cons]
    exact (ih _).trans (listCount_deleteBy_le l c.cid o)

theorem filter_map_length_eq {α : Type} (f : α → α) (p : α → Bool) (l : List α)
    (h : ∀ y ∈ l, p (f y) = p y) :
    ((l.map f).filter p).length = (l.filter p).length := by
  induction l with
  | nil => rfl
  | cons y ys ih =>
    have hy := h y (by simp)
    have hrest : ∀ z ∈ ys, p (f z) = p z := fun z hz => h z (by simp [hz])
    by_cases hp : p y
    · simp [List.filter_cons, hy, hp, ih hrest]
    · simp only [List.map_cons, List.filter_cons, hy]
      simp only [hp] at *
      simpa using ih hrest

theorem listCount_upsertBy_present (l : List Claimable) (x : Claimable) (o : Addr)
    (h : ∃ r ∈ l, r.cid = x.cid) :
    listCount (upsertBy Claimable.cid l x) o = listCount l o := by
  have hany : l.any (fun y => decide (y.cid = x.cid)) = true := by
    obtain ⟨r, hr, he⟩ := h
    exact List.any_eq_true.mpr ⟨r, hr, by simpa using he⟩
  unfold listCount upsertBy
  rw [if_pos hany]
  apply filter_map_length_eq
  intro y _
  by_cases hc : y.cid = x.cid
  · have : y.idOwner = x.idOwner := by
      have := congrArg Prod.fst hc
      simpa [Claimable.cid] using this
    simp [hc, this]
  · simp [hc]

theorem listCount_upsertBy_le (l : List Claimable) (x : Claimable) (o : Addr) :
    listCount (upsertBy Claimable.cid l x) o ≤
      listCount l o + (if x.idOwner = o then 1 else 0) := by
  by_cases hany : l.any (fun y => decide (y.cid = x.cid)) = true
  · have hp : ∃ r ∈ l, r.cid = x.cid := by
      obtain ⟨r, hr, he⟩ := List.any_eq_true.mp hany
      exact ⟨r, hr, by simpa using he⟩
    rw [listCount_upsertBy_present l x o hp]
    exact Nat.le_add_right _ _
  · unfold listCount upsertBy
    rw [if_neg hany, List.filter_append]
    simp only [List.length_append, List.filter_cons, List.filter_nil]
    by_cases hxo : x.idOwner = o <;> simp [hxo]

theorem stakeDelegationsStep_tables (db : EbakusDb) (caller amount : Nat) (db2 : EbakusDb)
    (h : stakeDelegationsStep db caller amount = .ok db2) :
    db2.claimables = db.claimables ∧ db2.systemStake = db.systemStake := by
  rw [stakeDelegationsStep] at h
  cases hfs : findStaked db caller with
  | some staked =>
    rw [hfs] at h
    simp only [exceptBindOkIff, exceptMapErrorOkIff] at h
    obtain ⟨⟨delegated, db3⟩, hu, h2⟩ := h
    obtain ⟨db4, hv, h3⟩ := h2
    have hu3 := unvoteRun_tables _ caller _ _ hu
    have hv4 := voteRun_tables _ caller delegated _ _ hv
    rw [exceptPureEq, Except.ok.injEq] at h3
    subst h3
    exact ⟨by rw [hv4.2.1, hu3.2.1], by rw [hv4.2.2, hu3.2.2]⟩
  | none =>
    rw [hfs] at h
    simp only [exceptBindOkIff, exceptMapErrorOkIff] at h
    obtain ⟨⟨delegated, db3⟩, hu, h2⟩ := h
    obtain ⟨db4, hv, h3⟩ := h2
    have hu3 := unvoteRun_tables _ caller _ _ hu
    have hv4 := voteRun_tables _ caller delegated _ _ hv
    rw [exceptPureEq, Except.ok.injEq] at h3
    subst h3
    exact ⟨by rw [hv4.2.1, hu3.2.1], by rw [hv4.2.2, hu3.2.2]⟩

theorem consumeClaimables_count (amount : Nat) (cs : List Claimable) (acc : Nat)
    (toDelete : List Claimable) (tbl : List Claimable) (o : Addr)
    (hmem : ∀ c ∈ cs, ∃ r ∈ tbl, r.cid = c.cid) :
    listCount (consumeClaimables amount cs acc toDelete tbl).2.2 o = listCount tbl o := by
  induction cs generalizing acc toDelete with
  | nil => rfl
  | cons c rest ih =>
    rw [consumeClaimables]
    by_cases hge : amount - acc ≥ c.amount
    · rw [if_pos hge]
      by_cases hacc : acc + c.amount = amount
      · simp only [if_pos hacc]
      · simp only [if_neg hacc]
        exact ih _ _ (fun x hx => hmem x (by simp [hx]))
    · rw [if_neg hge]
      exact listCount_upsertBy_present tbl _ o (hmem c (by simp))

theorem claimRun_claimables (s : EvmState) (caller now : Nat) (s2 : EvmState)
    (h : claimRun s caller now = .ok s2) :
    ∀ o, listCount s2.db.claimables o ≤ listCount s.db.claimables o := by
  intro o
  rw [claimRun] at h
  by_cases hz : ((claimablesOfAsc s.db caller).filter
      (fun c => decide (c.timestamp ≤ now)) |>.map Claimable.amount).sum = 0
  · rw [if_pos hz, Except.ok.injEq] at h
    subst h
    exact listCount_foldl_deleteBy_le _ _ o
  · rw [if_neg hz] at h
    by_cases hb : s.bal precompiledSystemContract <
        ((claimablesOfAsc s.db caller).filter
          (fun c => decide (c.timestamp ≤ now)) |>.map Claimable.amount).sum * precisionFactor
    · rw [if_pos hb] at h
      exact absurd h (by simp)
    · rw [if_neg hb, Except.ok.injEq] at h
      subst h
      exact listCount_foldl_deleteBy_le _ _ o

theorem stakeRun_claimables (s : EvmState) (caller amount : Nat) (s2 : EvmState)
    (h : stakeRun s caller amount = .ok s2) :
    ∀ o, listCount s2.db.claimables o ≤ listCount s.db.claimables o := by
  intro o
  rw [stakeRun] at h
  by_cases h0 : amount = 0
  · rw [if_pos h0] at h
    exact absurd h (by simp [exceptThrowEq, exceptBindErr])
  · rw [if_neg h0, exceptPureBind] at h
    dsimp only at h
    rcases hcc : consumeClaimables amount (claimablesOfDesc s.db caller) 0 [] s.db.claimables
      with ⟨claimableAmount, toDelete, tbl⟩
    rw [hcc] at h
    by_cases hbal : ¬ (amount - claimableAmount ≤ s.bal caller / precisionFactor)
    · rw [if_pos hbal] at h
      exact absurd h (by simp [exceptThrowEq, exceptBindErr])
    · rw [if_neg hbal, exceptPureBind] at h
      simp only [exceptBindOkIff] at h
      obtain ⟨db4, hstep, h3⟩ := h
      have htbl := stakeDelegationsStep_tables _ caller amount db4 hstep
      by_cases hwei : s.bal caller < (amount - claimableAmount) * precisionFactor
      · rw [if_pos hwei] at h3
        exact absurd h3 (by simp [exceptThrowEq, exceptBindErr])
      · rw [if_neg hwei, exceptPureBind, exceptPureEq, Except.ok.injEq] at h3
        subst h3
        have h4 : listCount db4.claimables o ≤ listCount tbl o := by
          rw [htbl.1]
          exact listCount_foldl_deleteBy_le _ _ o
        have h5 : listCount tbl o = listCount s.db.claimables o := by
          have hm : ∀ c ∈ claimablesOfDesc s.db caller,
              ∃ r ∈ s.db.claimables, r.cid = c.cid := by
            intro c hc
            refine ⟨c, ?_, rfl⟩
            have := (sortByLt_mem _ _ c).mp hc
            exact List.mem_of_mem_filter this
          have := consumeClaimables_count amount (claimablesOfDesc s.db caller) 0 [] s.db.claimables o hm
          rw [hcc] at this
          exact this
        calc listCount (transferBal { s with db := db4 } caller precompiledSystemContract
              ((amount - claimableAmount) * precisionFactor)).db.claimables o
            = listCount db4.claimables o := rfl
          _ ≤ listCount tbl o := h4
          _ = listCount s.db.claimables o := h5

theorem unstakeRun_claimables (s : EvmState) (caller amount now : Nat) (s2 : EvmState)
    (h : unstakeRun s caller amount now = .ok s2) :
    unstakeGuard (getClaimableId caller (now + unstakeVestingPeriod))
        (claimablesOfAsc s.db caller) 0 = none ∧
      s2.db.claimables = upsertBy Claimable.cid s.db.claimables
        { idOwner := caller, idTime := now + unstakeVestingPeriod,
          amount := amount, timestamp := now + unstakeVestingPeriod } := by
  rw [unstakeRun] at h
  cases hg : unstakeGuard (getClaimableId caller (now + unstakeVestingPeriod))
      (claimablesOfAsc s.db caller) 0 with
  | some e =>
    rw [hg] at h
    exact absurd h (by simp [exceptThrowEq, exceptBindErr])
  | none =>
    refine ⟨rfl, ?_⟩
    rw [hg] at h
    simp only [exceptPureBind] at h
    cases hfs : findStaked s.db caller with
    | none =>
      rw [hfs] at h
      exact absurd h (by simp [exceptThrowEq, exceptBindErr])
    | some staked =>
      rw [hfs] at h
      simp only [exceptPureBind] at h
      by_cases hgt : amount > staked.amount
      · rw [if_pos hgt] at h
        exact absurd h (by simp [exceptThrowEq, exceptBindErr])
      · rw [if_neg hgt] at h
        by_cases heq : amount = staked.amount
        all_goals (
          first
            | rw [if_pos heq] at h
            | rw [if_neg heq] at h)
        all_goals (
          simp only [exceptPureBind, exceptBindOkIff, exceptMapErrorOkIff] at h
          obtain ⟨⟨delegated, db3⟩, hu, h2⟩ := h
          obtain ⟨db4, hv, h3⟩ := h2
          have hu3 := unvoteRun_tables _ caller _ _ hu
          have hv4 := voteRun_tables _ caller delegated _ _ hv
          cases hs4 : db4.systemStake with
          | none =>
            simp only [hs4] at h3
            exact absurd h3 (by simp [exceptThrowEq, exceptBindErr, exceptMapErr])
          | some ss =>
            simp only [hs4, exceptPureBind] at h3
            by_cases hlt : ss < amount
            · rw [if_pos hlt] at h3
              exact absurd h3 (by simp [exceptThrowEq, exceptBindErr, exceptMapErr])
            · rw [if_neg hlt, exceptPureEq, Except.ok.injEq] at h3
              subst h3
              simp only
              rw [hv4.2.1, hu3.2.1])

theorem sysVoteRun_claimables (s : EvmState) (caller : Addr) (addrs : List Addr)
    (s2 : EvmState) (h : sysVoteRun s caller addrs = .ok s2) :
    s2.db.claimables = s.db.claimables := by
  rw [sysVoteRun] at h
  cases hfs : findStaked s.db caller with
  | none =>
    rw [hfs] at h
    exact absurd h (by simp [exceptThrowEq, exceptBindErr])
  | some staked =>
    rw [hfs] at h
    simp only [exceptPureBind, exceptBindOkIff, exceptMapErrorOkIff] at h
    obtain ⟨⟨delegated, db3⟩, hu, h2⟩ := h
    obtain ⟨db4, hv, h3⟩ := h2
    have hu3 := unvoteRun_tables _ caller _ _ hu
    have hv4 := voteRun_tables _ caller addrs _ _ hv
    rw [exceptPureEq, Except.ok.injEq] at h3
    subst h3
    simp only
    rw [hv4.2.1, hu3.2.1]

theorem sysUnvoteRun_claimables (s : EvmState) (caller : Addr)
    (s2 : EvmState) (h : sysUnvoteRun s caller = .ok s2) :
    s2.db.claimables = s.db.claimables := by
  rw [sysUnvoteRun] at h
  cases hfs : findStaked s.db caller with
  | none =>
    rw [hfs] at h
    exact absurd h (by simp [exceptThrowEq, exceptBindErr])
  | some staked =>
    rw [hfs] at h
    simp only [exceptPureBind, exceptBindOkIff, exceptMapErrorOkIff, exceptMapOkIff] at h
    obtain ⟨⟨delegated, db3⟩, hu, h2⟩ := h
    have hu3 := unvoteRun_tables _ caller _ _ hu
    rw [exceptPureEq, Except.ok.injEq] at h2
    subst h2
    exact hu3.2.1

theorem electEnableRun_claimables (s : EvmState) (caller : Addr) (enable : Bool)
    (s2 : EvmState) (h : electEnableRun s caller enable = .ok s2) :
    s2.db.claimables = s.db.claimables := by
  rw [electEnableRun, Except.ok.injEq] at h
  subst h
  rfl

theorem unstakeGuard_none_le (newId : Addr × Nat) :
    ∀ (cs : List Claimable) (count : Nat), count < maxClaimableEntries →
      unstakeGuard newId cs count = none → count + cs.length ≤ maxClaimableEntries - 1 := by
  intro cs
  induction cs with
  | nil =>
    intro count hlt _
    simpa using Nat.le_sub_one_of_lt hlt
  | cons c rest ih =>
    intro count hlt hg
    rw [unstakeGuard] at hg
    by_cases hd : c.cid = newId
    · rw [if_pos hd] at hg
      exact absurd hg (by simp)
    · rw [if_neg hd] at hg
      by_cases hc : count + 1 ≥ maxClaimableEntries
      · rw [if_pos hc] at hg
        exact absurd hg (by simp)
      · rw [if_neg hc] at hg
        have h2 := ih (count + 1) (by omega) hg
        simp only [List.length_cons]
        omega

theorem claimableCount_eq_listCount (db : EbakusDb) (o : Addr) :
    claimableCount db o = listCount db.claimables o := rfl

theorem claimablesOfAsc_length (db : EbakusDb) (caller : Addr) :
    (claimablesOfAsc db caller).length = listCount db.claimables caller := by
  rw [claimablesOfAsc, sortByLt_length]
  rfl

theorem stepOp_P3 (s : EvmState) (op : Op) (h : P3 s.db) : P3 (stepOp s op).db := by
  rw [stepOp, applyCall.eq_def]
  cases hr : runOp s op with
  | error e => exact h
  | ok s2 =>
    intro o
    rw [claimableCount_eq_listCount]
    cases op with
    | stakeOp caller amount now =>
      rw [runOp] at hr
      simp only [exceptBindOkIff] at hr
      obtain ⟨s1, hc, hs⟩ := hr
      have h1 := claimRun_claimables _ _ _ _ hc o
      have h2 := stakeRun_claimables _ _ _ _ hs o
      exact le_trans (h2.trans h1) (h o)
    | unstakeOp caller amount now =>
      rw [runOp] at hr
      obtain ⟨hg, hcl⟩ := unstakeRun_claimables _ _ _ _ _ hr
      have hle := listCount_upsertBy_le s.db.claimables
        { idOwner := caller, idTime := now + unstakeVestingPeriod,
          amount := amount, timestamp := now + unstakeVestingPeriod } o
      rw [hcl]
      have hM : maxClaimableEntries = 5 := rfl
      by_cases ho : caller = o
      · subst ho
        have hlen := unstakeGuard_none_le _ (claimablesOfAsc s.db caller) 0
          (by rw [maxClaimableEntries]; omega) hg
        rw [claimablesOfAsc_length] at hlen
        have hle2 : listCount (upsertBy Claimable.cid s.db.claimables
            { idOwner := caller, idTime := now + unstakeVestingPeriod,
              amount := amount, timestamp := now + unstakeVestingPeriod }) caller ≤
            listCount s.db.claimables caller + 1 := by
          simpa using hle
        omega
      · have hle2 : listCount (upsertBy Claimable.cid s.db.claimables
            { idOwner := caller, idTime := now + unstakeVestingPeriod,
              amount := amount, timestamp := now + unstakeVestingPeriod }) o ≤
            listCount s.db.claimables o := by
          simpa [ho] using hle
        exact le_trans hle2 (h o)
    | claimOp caller now =>
      rw [runOp] at hr
      exact le_trans (claimRun_claimables _ _ _ _ hr o) (h o)
    | voteOp caller addrs =>
      rw [runOp] at hr
      rw [sysVoteRun_claimables _ _ _ _ hr]
      exact h o
    | unvoteOp caller =>
      rw [runOp] at hr
      rw [sysUnvoteRun_claimables _ _ _ hr]
      exact h o
    | electOp caller enable =>
      rw [runOp] at hr
      rw [electEnableRun_claimables _ _ _ _ hr]
      exact h o

theorem P3_foldl (ops : List Op) : ∀ s : EvmState, P3 s.db → P3 ((ops.foldl stepOp s)).db := by
  induction ops with
  | nil => intro s h; exact h
  | cons op rest ih =>
    intro s h
    exact ih (stepOp s op) (stepOp_P3 s op h)

theorem unstakeGuard_tooMany (newId : Addr × Nat) :
    ∀ (cs : List Claimable) (count : Nat), count < maxClaimableEntries →
      maxClaimableEntries ≤ count + cs.length →
      (∀ c ∈ cs.take (maxClaimableEntries - count), c.cid ≠ newId) →
      unstakeGuard newId cs count = some .unstakeTooManyClaimable := by
  intro cs
  induction cs with
  | nil =>
    intro count hlt hge _
    simp only [List.length_nil, Nat.add_zero] at hge
    omega
  | cons c rest ih =>
    intro count hlt hge hdup
    have hc : c ∈ (c :: rest).take (maxClaimableEntries - count) := by
      have : 0 < maxClaimableEntries - count := by omega
      cases hmc : maxClaimableEntries - count with
      | zero => omega
      | succ k => simp [List.take_succ_cons]
    rw [unstakeGuard, if_neg (hdup c hc)]
    by_cases hstop : count + 1 ≥ maxClaimableEntries
    · rw [if_pos hstop]
    · rw [if_neg hstop]
      refine ih (count + 1) (by omega) (by simp only [List.length_cons] at hge; omega) ?_
      intro x hx
      refine hdup x ?_
      have hsub : maxClaimableEntries - count = (maxClaimableEntries - (count + 1)) + 1 := by
        omega
      rw [hsub, List.take_succ_cons]
      exact List.mem_cons_of_mem c hx

/-- A concrete state for the C5 witness: caller 10 holds exactly five
claimable rows, none of which collides with the new claimable id for block
time 0. -/
def stC5 : EvmState :=
  { db := { witnesses := [{ id := 7, stake := 0, flags := 1 }]
            staked := [{ id := 10, amount := 50 }]
            claimables :=
              [⟨10, 1, 5, 1⟩, ⟨10, 2, 5, 2⟩, ⟨10, 3, 5, 3⟩, ⟨10, 4, 5, 4⟩, ⟨10, 5, 5, 5⟩]
            delegations := []
            systemStake := some 50 }
    bal := fun _ => 0 }

/-- A concrete state for the C5 counterexample: caller 10 holds five
claimable rows and one of them carries exactly the id a block-time-0 unstake
would create (timestamp 259200 = the vesting period). -/
def stC5dup : EvmState :=
  { db := { witnesses := [{ id := 7, stake := 0, flags := 1 }]
            staked := [{ id := 10, amount := 50 }]
            claimables :=
              [⟨10, 1, 5, 1⟩, ⟨10, 2, 5, 2⟩, ⟨10, 3, 5, 3⟩, ⟨10, 4, 5, 4⟩,
               ⟨10, 259200, 5, 259200⟩]
            delegations := []
            systemStake := some 50 }
    bal := fun _ => 0 }

/-- C5 (counterexample): a caller with five outstanding claimable rows, one
of which is the same-block duplicate of the would-be new claimable id, gets
the generic error from unstake, not TooManyClaimable — so "TooManyClaimable
whenever the caller already has 5 or more claimables" is false as stated. -/
theorem unstake_claimable_limit_cex :
    maxClaimableEntries ≤ (claimablesOfAsc stC5dup.db 10).length ∧
      unstakeRun stC5dup 10 1 0 = .error .generic ∧
      SysErr.generic ≠ SysErr.unstakeTooManyClaimable :=
  ⟨by decide, rfl, by decide⟩

/-- C5 (amended): unstake fails with TooManyClaimable whenever the caller
already has maxClaimableEntries (5) or more claimable rows and none of the
first five rows in id order carries the same-block duplicate id (with such a
duplicate among them the generic error wins instead); and independently of
that, after every sequence of system-contract operations from genesis every
owner holds at most 5 claimable rows. -/
theorem unstake_claimable_limit :
    (∀ (s : EvmState) (caller amount now : Nat),
      maxClaimableEntries ≤ (claimablesOfAsc s.db caller).length →
      (∀ c ∈ (claimablesOfAsc s.db caller).take maxClaimableEntries,
        c.cid ≠ getClaimableId caller (now + unstakeVestingPeriod)) →
      unstakeRun s caller amount now = .error .unstakeTooManyClaimable) ∧
    (∀ (g : Addr) (bal0 : Addr → Nat) (ops : List Op), P3 (runOps g bal0 ops).db) := by
  constructor
  · intro s caller amount now hlen hdup
    have hg := unstakeGuard_tooMany (getClaimableId caller (now + unstakeVestingPeriod))
      (claimablesOfAsc s.db caller) 0 (by rw [maxClaimableEntries]; omega)
      (by simpa using hlen) (by simpa using hdup)
    rw [unstakeRun, hg]
    rfl
  · intro g bal0 ops
    refine P3_foldl ops (genesisState g bal0) ?_
    intro o
    simp [claimableCount, genesisState, genesisDb, maxClaimableEntries]

/-- C5 witness: the amended theorem applied at the concrete five-claimable
state (no duplicate) and at a concrete operation sequence. -/
theorem unstake_claimable_limit_witness :
    unstakeRun stC5 10 1 0 = .error .unstakeTooManyClaimable ∧
      P3 (runOps 7 (fun _ => 0) [.claimOp 10 0]).db :=
  ⟨unstake_claimable_limit.1 stC5 10 1 0 (by decide) (by decide),
   unstake_claimable_limit.2 7 (fun _ => 0) [.claimOp 10 0]⟩

/-- A concrete state for the C4 witness: caller 10 holds a Staked row of 5
and the SystemStake scalar is 5. -/
def stC4 : EvmState :=
  { db := { witnesses := [{ id := 7, stake := 0, flags := 1 }]
            staked := [{ id := 10, amount := 5 }]
            claimables := []
            delegations := []
            systemStake := some 5 }
    bal := fun _ => 0 }

/-- C4 witness: the unstake-semantics theorem applied at a concrete state
with staked amount 5 and request 6 (both guards pass there). -/
theorem unstake_amount_semantics_witness :
    (6 > 5 → unstakeRun stC4 10 6 0 = .error .unstakeNotEnoughStaked) ∧
    (∀ s2, unstakeRun stC4 10 6 0 = .ok s2 →
      (if 6 = 5 then findStaked s2.db 10 = none
       else findStaked s2.db 10 = some ⟨10, 5 - 6⟩) ∧
      ∃ ss, stC4.db.systemStake = some ss ∧ 6 ≤ ss ∧
        s2.db.systemStake = some (ss - 6)) :=
  unstake_amount_semantics stC4 10 5 6 0 (by decide) (by decide)

/-! ### C1 — failed balance test in stake reverts claimable mutations -/

/-- C1: for every caller, store state and positive amount, when stake fails
its balance test — the residual not covered by outstanding claimables (the
credited amount computed by the claimable-consumption loop) exceeds
balance / precisionFactor — the call returns NotEnoughBalance, and the
visible state after the call (the failed sub-snapshot is discarded) carries
every Claimable row of every owner, a partially decremented one included,
exactly as before the call. -/
theorem stake_balance_fail_reverts (s : EvmState) (caller amount : Nat)
    (h0 : amount ≠ 0)
    (hfail : s.bal caller / precisionFactor <
      amount - (consumeClaimables amount (claimablesOfDesc s.db caller) 0 [] s.db.claimables).1) :
    stakeRun s caller amount = .error .stakeNotEnoughBalance ∧
      (applyCall s (stakeRun s caller amount)).db.claimables = s.db.claimables ∧
      applyCall s (stakeRun s caller amount) = s := by
  have herr : stakeRun s caller amount = .error .stakeNotEnoughBalance := by
    rw [stakeRun, if_neg h0, exceptPureBind]
    dsimp only
    rcases hcc : consumeClaimables amount (claimablesOfDesc s.db caller) 0 [] s.db.claimables
      with ⟨claimableAmount, toDelete, tbl⟩
    rw [hcc] at hfail
    rw [if_pos (Nat.not_le.mpr hfail)]
    rfl
  refine ⟨herr, ?_, ?_⟩ <;> rw [herr] <;> rfl

/-- C1 witness: concrete caller with zero balance and no claimables staking 1
unit: the residual 1 exceeds balance/1e14 = 0, the call fails with
NotEnoughBalance, and the visible state is unchanged. -/
theorem stake_balance_fail_reverts_witness :
    stakeRun st0 10 1 = .error .stakeNotEnoughBalance ∧
      (applyCall st0 (stakeRun st0 10 1)).db.claimables = st0.db.claimables ∧
      applyCall st0 (stakeRun st0 10 1) = st0 :=
  stake_balance_fail_reverts st0 10 1 (by decide) (by decide)

/-! ### Table characterization lemmas for the witness-stake invariant -/

theorem eq_of_find?_id (a : Addr) (w : Witness) :
    ∀ l : List Witness, (l.map Witness.id).Nodup →
      l.find? (fun r => decide (r.id = a)) = some w → ∀ r ∈ l, r.id = a → r = w := by
  intro l
  induction l with
  | nil => intro _ hfind; simp at hfind
  | cons y ys ih =>
    intro hn hfind r hr hra
    simp only [List.map_cons, List.nodup_cons] at hn
    by_cases hy : y.id = a
    · rw [List.find?_cons_of_pos _ (by simpa using hy)] at hfind
      cases hfind
      rcases List.mem_cons.mp hr with hreq | hrtail
      · exact hreq
      · exact absurd (by rw [hy, ← hra]; exact List.mem_map_of_mem Witness.id hrtail) hn.1
    · rw [List.find?_cons_of_neg _ (by simpa using hy)] at hfind
      rcases List.mem_cons.mp hr with hreq | hrtail
      · exact absurd (hreq ▸ hra) hy
      · exact ih hn.2 hfind r hrtail hra

theorem upsertBy_witness_replace2 (l : List Witness) (a : Addr) (w : Witness)
    (hfind : l.find? (fun r => decide (r.id = a)) = some w)
    (x : Witness) (hid : x.id = a) :
    upsertBy Witness.id l x = l.map (fun r => if r.id = a then x else r) := by
  have hw : w ∈ l := List.mem_of_find?_eq_some hfind
  have hwa : w.id = a := by simpa using List.find?_some hfind
  have hany : l.any (fun y => decide (y.id = x.id)) = true :=
    List.any_eq_true.mpr ⟨w, hw, by simp [hwa, hid]⟩
  rw [upsertBy, if_pos hany]
  apply List.map_congr_left
  intro r _
  rw [hid]

theorem stakedAmount_map_replace (l : List Staked) (x : Staked) (o : Addr) :
    stakedAmount (l.map (fun y => if y.id = x.id then x else y)) o =
      if o = x.id then
        (if l.any (fun y => decide (y.id = x.id)) then x.amount else stakedAmount l o)
      else stakedAmount l o := by
  induction l with
  | nil => simp [stakedAmount]
  | cons y ys ih =>
    by_cases hy : y.id = x.id
    · by_cases ho : o = x.id
      · subst ho
        simp [stakedAmount, hy, List.find?_cons]
      · have hyo : ¬ y.id = o := fun hcon => ho (by rw [← hcon, hy])
        have hxo : ¬ x.id = o := fun hcon => ho hcon.symm
        simp only [List.map_cons, if_pos hy]
        unfold stakedAmount
        rw [List.find?_cons_of_neg _ (by simpa using hxo),
          List.find?_cons_of_neg _ (by simpa using hyo)]
        have h2 := ih
        unfold stakedAmount at h2
        simpa [ho] using h2
    · by_cases hyo : y.id = o
      · have ho : ¬ o = x.id := fun hcon => hy (by rw [hyo, hcon])
        simp only [List.map_cons, if_neg hy]
        unfold stakedAmount
        rw [List.find?_cons_of_pos _ (by simpa using hyo),
          List.find?_cons_of_pos _ (by simpa using hyo)]
        simp [ho]
      · simp only [List.map_cons, if_neg hy]
        unfold stakedAmount
        rw [List.find?_cons_of_neg _ (by simpa using hyo),
          List.find?_cons_of_neg _ (by simpa using hyo)]
        have h2 := ih
        unfold stakedAmount at h2
        rw [h2]
        simp only [List.any_cons, Bool.or_eq_true]
        have hyx : (decide (y.id = x.id)) = false := by simpa using hy
        simp [hyx]

theorem stakedAmount_upsert (st : List Staked) (x : Staked) (o : Addr) :
    stakedAmount (upsertBy Staked.id st x) o =
      if o = x.id then x.amount else stakedAmount st o := by
  rw [upsertBy]
  by_cases hany : st.any (fun y => decide (y.id = x.id)) = true
  · rw [if_pos hany, stakedAmount_map_replace]
    simp [hany]
  · rw [if_neg hany]
    have hnone : ∀ y ∈ st, ¬ y.id = x.id := by
      intro y hy
      simp only [List.any_eq_true, not_exists] at hany
      intro hcon
      exact hany y ⟨hy, by simpa using hcon⟩
    by_cases ho : o = x.id
    · subst ho
      unfold stakedAmount
      rw [List.find?_append]
      rw [show st.find? (fun y => decide (y.id = x.id)) = none from
        List.find?_eq_none.mpr (fun y hy => by simpa using hnone y hy)]
      simp [List.find?]
    · unfold stakedAmount
      rw [List.find?_append]
      cases hf : st.find? (fun y => decide (y.id = o)) with
      | some r => simp [ho]
      | none =>
        have hxon : (decide (x.id = o)) = false := by
          simpa using fun hcon => ho hcon.symm
        simp [List.find?, hxon, Option.orElse, ho]

theorem find?_deleteBy_ne (st : List Staked) (i o : Addr) (ho : ¬ o = i) :
    (deleteBy Staked.id st i).find? (fun r => decide (r.id = o)) =
      st.find? (fun r => decide (r.id = o)) := by
  induction st with
  | nil => rfl
  | cons y ys ih =>
    rw [deleteBy, List.filter_cons]
    by_cases hy : y.id = i
    · have hcond : (decide (Staked.id y ≠ i)) = false := by simpa using hy
      rw [hcond]
      simp only [Bool.false_eq_true, if_false]
      have hyo : ¬ y.id = o := fun hcon => ho (by rw [← hcon, hy])
      rw [List.find?_cons_of_neg _ (by simpa using hyo)]
      exact ih
    · have hcond : (decide (Staked.id y ≠ i)) = true := by simpa using hy
      rw [hcond]
      simp only [if_true]
      by_cases hyo : y.id = o
      · rw [List.find?_cons_of_pos _ (by simpa using hyo),
          List.find?_cons_of_pos _ (by simpa using hyo)]
      · rw [List.find?_cons_of_neg _ (by simpa using hyo),
          List.find?_cons_of_neg _ (by simpa using hyo)]
        exact ih

theorem stakedAmount_deleteBy (st : List Staked) (i o : Addr) :
    stakedAmount (deleteBy Staked.id st i) o =
      if o = i then 0 else stakedAmount st o := by
  by_cases ho : o = i
  · subst ho
    unfold stakedAmount
    rw [show (deleteBy Staked.id st o).find? (fun r => decide (r.id = o)) = none from ?_]
    · simp
    · rw [List.find?_eq_none]
      intro u hu
      have := List.of_mem_filter hu
      simpa using this
  · unfold stakedAmount
    rw [find?_deleteBy_ne st i o ho]
    simp [ho]

/-- Pointwise effect of the vote helper on a witness row. -/
def bumpStake (addrs : List Addr) (amount : Nat) (r : Witness) : Witness :=
  if r.id ∈ addrs then { r with stake := r.stake + amount } else r

/-- Pointwise effect of the unvote helper on a witness row. -/
def dropStake (targets : List Addr) (amount : Nat) (r : Witness) : Witness :=
  if r.id ∈ targets then { r with stake := r.stake - amount } else r

theorem upsertBy_id_fresh {α : Type} [DecidableEq α] (l : List α) (x : α) (h : x ∉ l) :
    upsertBy id l x = l ++ [x] := by
  rw [upsertBy, if_neg]
  simp only [List.any_eq_true, not_exists]
  intro y
  intro hy
  obtain ⟨hmem, he⟩ := hy
  exact h ((by simpa using he) ▸ hmem)

theorem map_id_of_preserve (l : List Witness) (f : Witness → Witness)
    (h : ∀ r ∈ l, (f r).id = r.id) :
    (l.map f).map Witness.id = l.map Witness.id := by
  rw [List.map_map]
  apply List.map_congr_left
  intro r hr
  exact h r hr

theorem voteRun_effect (caller : Addr) (amount : Nat) :
    ∀ (addrs : List Addr) (db db2 : EbakusDb),
      voteRun db caller addrs amount = .ok db2 →
      addrs.Nodup →
      (db.witnesses.map Witness.id).Nodup →
      (∀ a ∈ addrs, (caller, a) ∉ db.delegations) →
      db2.witnesses = db.witnesses.map (bumpStake addrs amount) ∧
      db2.delegations = db.delegations ++ addrs.map (fun a => (caller, a)) ∧
      (∀ a ∈ addrs, ∃ w ∈ db.witnesses, w.id = a) := by
  intro addrs
  induction addrs with
  | nil =>
    intro db db2 hok _ _ _
    rw [voteRun] at hok
    cases hok
    refine ⟨?_, by simp, by simp⟩
    rw [show db.witnesses.map (bumpStake [] amount) = db.witnesses.map (fun r => r) from
      List.map_congr_left (fun r _ => by simp [bumpStake])]
    simp
  | cons a rest ih =>
    intro db db2 hok hnd hwid hfresh
    rw [voteRun] at hok
    cases hw : findWitness db a with
    | none => rw [hw] at hok; exact absurd hok (by simp)
    | some w =>
      rw [hw] at hok
      simp only at hok
      have hwa : w.id = a := by simpa using List.find?_some hw
      set x : Witness := { w with stake := w.stake + amount } with hx
      have hxid : x.id = a := hwa
      have hrepl := upsertBy_witness_replace2 db.witnesses a w hw x hxid
      have hfr : (caller, a) ∉ db.delegations := hfresh a (by simp)
      have hdel1 : upsertBy id db.delegations (caller, a) = db.delegations ++ [(caller, a)] :=
        upsertBy_id_fresh _ _ hfr
      simp only [List.nodup_cons] at hnd
      have hwid1 : ((db.witnesses.map (fun r => if r.id = a then x else r)).map Witness.id).Nodup := by
        rw [map_id_of_preserve]
        · exact hwid
        · intro r _
          by_cases hra : r.id = a
          · simp [hra, hxid]
          · simp [hra]
      have hfresh1 : ∀ b ∈ rest, (caller, b) ∉ db.delegations ++ [(caller, a)] := by
        intro b hb
        simp only [List.mem_append, List.mem_singleton, not_or]
        exact ⟨hfresh b (by simp [hb]), by
          intro hcon
          exact hnd.1 ((by simpa using hcon) ▸ hb)⟩
      have hok2 : voteRun
          { db with
            witnesses := db.witnesses.map (fun r => if r.id = a then x else r),
            delegations := db.delegations ++ [(caller, a)] } caller rest amount = .ok db2 := by
        rw [← hrepl, ← hdel1]
        exact hok
      obtain ⟨hW, hD, hE⟩ := ih _ db2 hok2 hnd.2 hwid1 hfresh1
      refine ⟨?_, ?_, ?_⟩
      · rw [hW]
        simp only [List.map_map]
        apply List.map_congr_left
        intro r hr
        simp only [Function.comp]
        by_cases hra : r.id = a
        · have hrw : r = w := eq_of_find?_id a w db.witnesses hwid hw r hr hra
          have hxa : ¬ x.id ∈ rest := by
            rw [hxid]
            exact hnd.1
          rw [if_pos hra]
          rw [bumpStake, if_neg hxa]
          rw [bumpStake, if_pos (by simp [hra])]
          rw [hrw]
        · rw [if_neg hra]
          rw [bumpStake, bumpStake]
          by_cases hrr : r.id ∈ rest
          · rw [if_pos hrr, if_pos (by simp [hrr])]
          · rw [if_neg hrr, if_neg (by simp [hra, hrr])]
      · rw [hD]
        simp [List.append_assoc]
      · intro b hb
        rcases List.mem_cons.mp hb with hbeq | hbtail
        · exact ⟨w, List.mem_of_find?_eq_some hw, by
            rw [hbeq]
            simpa using List.find?_some hw⟩
        · obtain ⟨w2, hw2mem, hw2id⟩ := hE b hbtail
          obtain ⟨r, hrmem, hrw2⟩ := List.mem_map.mp hw2mem
          refine ⟨r, hrmem, ?_⟩
          rw [← hw2id, ← hrw2]
          by_cases hra : r.id = a
          · simp [hra, hxid]
          · simp [hra]

theorem unvotePass_effect (caller : Addr) (amount : Nat) :
    ∀ (ds : List DelegationId) (db db2 : EbakusDb),
      unvoteWitnessPass db amount ds = .ok db2 →
      (ds.map Prod.snd).Nodup →
      (db.witnesses.map Witness.id).Nodup →
      db2.witnesses = db.witnesses.map (dropStake (ds.map Prod.snd) amount) ∧
      (∀ d ∈ ds, ∃ w ∈ db.witnesses, w.id = d.2 ∧ amount ≤ w.stake) := by
  intro ds
  induction ds with
  | nil =>
    intro db db2 hok _ _
    rw [unvoteWitnessPass] at hok
    cases hok
    constructor
    · have h1 : List.map Prod.snd ([] : List DelegationId) = [] := rfl
      rw [h1, List.map_congr_left
        (fun r _ => by simp [dropStake] : ∀ r ∈ db.witnesses, dropStake [] amount r = id r)]
      rw [List.map_id]
    · simp
  | cons d rest ih =>
    intro db db2 hok hnd hwid
    rw [unvoteWitnessPass] at hok
    cases hw : findWitness db d.2 with
    | none => rw [hw] at hok; exact absurd hok (by simp)
    | some w =>
      rw [hw] at hok
      simp only at hok
      by_cases hlt : w.stake < amount
      · rw [if_pos hlt] at hok
        exact absurd hok (by simp)
      · rw [if_neg hlt] at hok
        have hwa : w.id = d.2 := by simpa using List.find?_some hw
        set x : Witness := { w with stake := w.stake - amount } with hx
        have hxid : x.id = d.2 := hwa
        have hrepl := upsertBy_witness_replace2 db.witnesses d.2 w hw x hxid
        simp only [List.map_cons, List.nodup_cons] at hnd
        have hwid1 : ((db.witnesses.map (fun r => if r.id = d.2 then x else r)).map
            Witness.id).Nodup := by
          rw [map_id_of_preserve]
          · exact hwid
          · intro r _
            by_cases hra : r.id = d.2
            · simp [hra, hxid]
            · simp [hra]
        have hok2 : unvoteWitnessPass
            { db with witnesses := db.witnesses.map (fun r => if r.id = d.2 then x else r) }
            amount rest = .ok db2 := by
          rw [← hrepl]
          exact hok
        obtain ⟨hW, hS⟩ := ih _ db2 hok2 hnd.2 hwid1
        refine ⟨?_, ?_⟩
        · rw [hW]
          simp only [List.map_map]
          apply List.map_congr_left
          intro r hr
          simp only [Function.comp]
          by_cases hra : r.id = d.2
          · have hrw : r = w := eq_of_find?_id d.2 w db.witnesses hwid hw r hr hra
            have hxa : ¬ x.id ∈ rest.map Prod.snd := by
              rw [hxid]
              exact hnd.1
            rw [if_pos hra]
            rw [dropStake, if_neg hxa]
            rw [dropStake, if_pos (by simp [hra])]
            rw [hrw]
          · rw [if_neg hra]
            rw [dropStake, dropStake]
            by_cases hrr : r.id ∈ rest.map Prod.snd
            · rw [if_pos hrr, if_pos (by simp [hrr])]
            · rw [if_neg hrr, if_neg (by simp [hra, hrr])]
        · intro e he
          rcases List.mem_cons.mp he with heq | hetail
          · exact ⟨w, List.mem_of_find?_eq_some hw, heq ▸ hwa, Nat.le_of_not_lt hlt⟩
          · obtain ⟨w2, hw2mem, hw2id, hw2le⟩ := hS e hetail
            obtain ⟨r, hrmem, hrw2⟩ := List.mem_map.mp hw2mem
            by_cases hra : r.id = d.2
            · rw [if_pos hra] at hrw2
              have : e.2 ≠ d.2 := by
                intro hcon
                exact hnd.1 (hcon ▸ List.mem_map_of_mem Prod.snd hetail)
              rw [← hrw2] at hw2id
              exact absurd (hw2id.symm.trans hxid) this
            · rw [if_neg hra] at hrw2
              exact ⟨r, hrmem, by rw [hrw2]; exact hw2id, by rw [hrw2]; exact hw2le⟩

theorem foldl_deleteBy_filter {α : Type} [DecidableEq α] (ds : List α) :
    ∀ l : List α, ds.foldl (fun t d => deleteBy id t d) l =
      l.filter (fun y => decide (y ∉ ds)) := by
  induction ds with
  | nil =>
    intro l
    simp
  | cons d rest ih =>
    intro l
    rw [List.foldl_cons, ih, deleteBy, List.filter_filter]
    apply List.filter_congr
    intro y _
    by_cases h1 : y = d <;> by_cases h2 : y ∈ rest <;> simp [h1, h2]

theorem snd_nodup_of_same_fst (caller : Addr) (l : List DelegationId)
    (hn : l.Nodup) (hf : ∀ d ∈ l, d.1 = caller) : (l.map Prod.snd).Nodup := by
  induction l with
  | nil => simp
  | cons d rest ih =>
    rw [List.nodup_cons] at hn
    rw [List.map_cons, List.nodup_cons]
    refine ⟨?_, ih hn.2 (fun e he => hf e (by simp [he]))⟩
    intro hcon
    obtain ⟨e, hemem, hesnd⟩ := List.mem_map.mp hcon
    have heq : e = d := by
      have h1 : e.1 = caller := hf e (by simp [hemem])
      have h2 : d.1 = caller := hf d (by simp)
      cases e
      cases d
      simp only [Prod.mk.injEq]
      exact ⟨h1.trans h2.symm, hesnd⟩
    exact hn.1 (heq ▸ hemem)

theorem delegationsOf_mem (db : EbakusDb) (caller : Addr) (d : DelegationId) :
    d ∈ delegationsOf db caller ↔ d ∈ db.delegations ∧ d.1 = caller := by
  rw [delegationsOf, sortByLt_mem, List.mem_filter]
  simp

theorem delegationsOf_nodup (db : EbakusDb) (caller : Addr)
    (hdn : db.delegations.Nodup) : (delegationsOf db caller).Nodup :=
  ((sortByLt_perm _ _).nodup_iff).mpr (hdn.filter _)

theorem delegationsOf_fst (db : EbakusDb) (caller : Addr) :
    ∀ d ∈ delegationsOf db caller, d.1 = caller := by
  intro d hd
  exact ((delegationsOf_mem db caller d).mp hd).2

theorem unvoteRun_effect (db : EbakusDb) (caller : Addr) (amount : Nat)
    (delegated : List Addr) (db2 : EbakusDb)
    (hok : unvoteRun db caller amount = .ok (delegated, db2))
    (hwid : (db.witnesses.map Witness.id).Nodup)
    (hdn : db.delegations.Nodup) :
    delegated = (delegationsOf db caller).map Prod.snd ∧
    db2.witnesses = db.witnesses.map (dropStake delegated amount) ∧
    db2.delegations = db.delegations.filter (fun d => decide (¬ d.1 = caller)) ∧
    (∀ d ∈ delegationsOf db caller, ∃ w ∈ db.witnesses, w.id = d.2 ∧ amount ≤ w.stake) := by
  rw [unvoteRun] at hok
  simp only [exceptBindOkIff] at hok
  obtain ⟨dbp, hpass, hrest⟩ := hok
  have hsnd : ((delegationsOf db caller).map Prod.snd).Nodup :=
    snd_nodup_of_same_fst caller _ (delegationsOf_nodup db caller hdn)
      (delegationsOf_fst db caller)
  obtain ⟨hW, hB⟩ := unvotePass_effect caller amount (delegationsOf db caller) db dbp
    hpass hsnd hwid
  have hptab := unvoteWitnessPass_tables db amount (delegationsOf db caller) dbp hpass
  rw [Except.ok.injEq, Prod.mk.injEq] at hrest
  obtain ⟨hdel, hdb2⟩ := hrest
  subst hdb2
  refine ⟨hdel.symm, ?_, ?_, fun d hd => hB d hd⟩
  · show dbp.witnesses = _
    rw [← hdel]
    exact hW
  · show List.foldl (fun t d => deleteBy id t d) dbp.delegations (delegationsOf db caller) = _
    rw [hptab.2.2.2, foldl_deleteBy_filter]
    apply List.filter_congr
    intro y hy
    have hmm : y ∈ delegationsOf db caller ↔ y.1 = caller := by
      rw [delegationsOf_mem]
      simp [hy]
    by_cases hc : y.1 = caller
    · simp [hmm, hc]
    · simp [hmm, hc]

/-! ### Sum lemmas for the witness-stake invariant -/

theorem sumDelegatedStake_append (st : List Staked) (dl1 dl2 : List DelegationId) (w : Addr) :
    sumDelegatedStake st (dl1 ++ dl2) w =
      sumDelegatedStake st dl1 w + sumDelegatedStake st dl2 w := by
  unfold sumDelegatedStake
  rw [List.filter_append, List.map_append, List.sum_append]

theorem sumDelegatedStake_congr (st st2 : List Staked) (dl : List DelegationId) (w : Addr)
    (h : ∀ d ∈ dl, stakedAmount st2 d.1 = stakedAmount st d.1) :
    sumDelegatedStake st2 dl w = sumDelegatedStake st dl w := by
  unfold sumDelegatedStake
  congr 1
  apply List.map_congr_left
  intro d hd
  exact h d (List.mem_of_mem_filter hd)

theorem sumDelegatedStake_cons (st : List Staked) (d : DelegationId)
    (rest : List DelegationId) (w : Addr) :
    sumDelegatedStake st (d :: rest) w =
      (if d.2 = w then stakedAmount st d.1 else 0) + sumDelegatedStake st rest w := by
  unfold sumDelegatedStake
  rw [List.filter_cons]
  by_cases h : d.2 = w
  · simp [h]
  · simp [h]

theorem sumDelegatedStake_split_caller (st : List Staked) (dl : List DelegationId)
    (caller w : Addr) (hdn : dl.Nodup) :
    sumDelegatedStake st dl w =
      sumDelegatedStake st (dl.filter (fun d => decide (¬ d.1 = caller))) w +
        (if (caller, w) ∈ dl then stakedAmount st caller else 0) := by
  induction dl with
  | nil => simp [sumDelegatedStake]
  | cons d rest ih =>
    rw [List.nodup_cons] at hdn
    have ihr := ih hdn.2
    rw [sumDelegatedStake_cons, ihr, List.filter_cons]
    by_cases hfst : d.1 = caller
    · rw [show (decide (¬ d.1 = caller)) = false from by simpa using hfst]
      simp only [Bool.false_eq_true, if_false]
      by_cases hdw : (caller, w) = d
      · have hd2 : d.2 = w := by rw [← hdw]
        have hnin : ¬ (caller, w) ∈ rest := fun hcon => hdn.1 (hdw ▸ hcon)
        have h1 : (caller, w) ∈ d :: rest := by
          rw [List.mem_cons]
          exact Or.inl hdw
        rw [if_pos hd2, if_pos h1, if_neg hnin]
        have hsa : stakedAmount st d.1 = stakedAmount st caller := by rw [hfst]
        rw [hsa]
        omega
      · have hd2 : ¬ d.2 = w := by
          intro hcon
          apply hdw
          cases d
          simp only [Prod.mk.injEq]
          exact ⟨hfst.symm, hcon.symm⟩
        have hiff : ((caller, w) ∈ d :: rest) ↔ ((caller, w) ∈ rest) := by
          rw [List.mem_cons]
          simp [hdw]
        rw [if_neg hd2]
        by_cases hmem : (caller, w) ∈ rest
        · rw [if_pos (hiff.mpr hmem), if_pos hmem]
          omega
        · rw [if_neg (fun hcon => hmem (hiff.mp hcon)), if_neg hmem]
          omega
    · rw [show (decide (¬ d.1 = caller)) = true from by simpa using hfst]
      simp only [if_true]
      rw [sumDelegatedStake_cons]
      have hne : ¬ (caller, w) = d := fun hcon => hfst (by rw [← hcon])
      have hiff : ((caller, w) ∈ d :: rest) ↔ ((caller, w) ∈ rest) := by
        rw [List.mem_cons]
        simp [hne]
      by_cases hmem : (caller, w) ∈ rest
      · rw [if_pos (hiff.mpr hmem), if_pos hmem]
        omega
      · rw [if_neg (fun hcon => hmem (hiff.mp hcon)), if_neg hmem]
        omega

theorem sumDelegatedStake_map_addrs (st : List Staked) (caller : Addr) (addrs : List Addr)
    (w : Addr) (hnd : addrs.Nodup) :
    sumDelegatedStake st (addrs.map (fun a => (caller, a))) w =
      if w ∈ addrs then stakedAmount st caller else 0 := by
  induction addrs with
  | nil => simp [sumDelegatedStake]
  | cons a rest ih =>
    rw [List.nodup_cons] at hnd
    unfold sumDelegatedStake
    rw [List.map_cons, List.filter_cons]
    by_cases haw : a = w
    · rw [show (decide ((caller, a).2 = w)) = true from by simpa using haw]
      simp only [if_true, List.map_cons, List.sum_cons]
      unfold sumDelegatedStake at ih
      rw [ih hnd.2]
      have : ¬ w ∈ rest := haw ▸ hnd.1
      simp [haw, this]
    · rw [show (decide ((caller, a).2 = w)) = false from by simpa using haw]
      simp only [Bool.false_eq_true, if_false]
      unfold sumDelegatedStake at ih
      rw [ih hnd.2]
      have : (w ∈ a :: rest) ↔ (w ∈ rest) := by
        simp [List.mem_cons]
        intro hcon
        exact absurd hcon.symm haw
      by_cases hw : w ∈ rest <;> simp [this, hw]

theorem dropStake_id (targets : List Addr) (amount : Nat) (r : Witness) :
    (dropStake targets amount r).id = r.id := by
  rw [dropStake]
  by_cases h : r.id ∈ targets <;> simp [h]

theorem bumpStake_id (addrs : List Addr) (amount : Nat) (r : Witness) :
    (bumpStake addrs amount r).id = r.id := by
  rw [bumpStake]
  by_cases h : r.id ∈ addrs <;> simp [h]

theorem mem_id_unique (l : List Witness) (hn : (l.map Witness.id).Nodup) :
    ∀ r1 ∈ l, ∀ r2 ∈ l, r1.id = r2.id → r1 = r2 := by
  induction l with
  | nil => simp
  | cons y ys ih =>
    simp only [List.map_cons, List.nodup_cons] at hn
    intro r1 h1 r2 h2 hid
    rcases List.mem_cons.mp h1 with e1 | t1 <;> rcases List.mem_cons.mp h2 with e2 | t2
    · rw [e1, e2]
    · exact absurd (by rw [← e1, hid]; exact List.mem_map_of_mem Witness.id t2) hn.1
    · exact absurd (by rw [← e2, ← hid]; exact List.mem_map_of_mem Witness.id t1) hn.1
    · exact ih hn.2 r1 t1 r2 t2 hid

/-- Core invariant-preservation step shared by stake, unstake, vote and
unvote: removing all of the caller's delegations at the old amount and
re-adding a duplicate-free list at the new amount, while the staked table
moves from carrying `amountOld` to `amountNew` for the caller, re-establishes
P2 together with the structural table invariants. -/
theorem unvote_vote_P2
    (db : EbakusDb) (caller : Addr) (st0 stFin : List Staked)
    (amountOld amountNew : Nat) (addrs : List Addr)
    (delegated : List Addr) (db1 db2 : EbakusDb)
    (hwid : (db.witnesses.map Witness.id).Nodup)
    (hdn : db.delegations.Nodup)
    (hdw : ∀ d ∈ db.delegations, ∃ w ∈ db.witnesses, w.id = d.2)
    (hP2 : ∀ w ∈ db.witnesses, w.stake = sumDelegatedStake st0 db.delegations w.id)
    (hOld : stakedAmount st0 caller = amountOld)
    (hFinC : stakedAmount stFin caller = amountNew)
    (hFinO : ∀ o, ¬ o = caller → stakedAmount stFin o = stakedAmount st0 o)
    (hndA : addrs.Nodup)
    (hu : unvoteRun db caller amountOld = .ok (delegated, db1))
    (hv : voteRun db1 caller addrs amountNew = .ok db2) :
    (db2.witnesses.map Witness.id).Nodup ∧ db2.delegations.Nodup ∧
    (∀ d ∈ db2.delegations, ∃ w ∈ db2.witnesses, w.id = d.2) ∧
    (∀ w2 ∈ db2.witnesses, w2.stake = sumDelegatedStake stFin db2.delegations w2.id) := by
  obtain ⟨hdel, hW1, hD1, hB⟩ := unvoteRun_effect db caller amountOld delegated db1 hu hwid hdn
  have hwid1 : (db1.witnesses.map Witness.id).Nodup := by
    rw [hW1, map_id_of_preserve]
    · exact hwid
    · intro r _
      rw [dropStake]
      by_cases h : r.id ∈ delegated <;> simp [h]
  have hdn1 : db1.delegations.Nodup := by
    rw [hD1]
    exact hdn.filter _
  have hfresh1 : ∀ a ∈ addrs, (caller, a) ∉ db1.delegations := by
    intro a _ hcon
    rw [hD1] at hcon
    have h2 := List.of_mem_filter hcon
    simp at h2
  obtain ⟨hW2, hD2, hEx⟩ := voteRun_effect caller amountNew addrs db1 db2 hv hndA hwid1 hfresh1
  have hwid2 : (db2.witnesses.map Witness.id).Nodup := by
    rw [hW2, map_id_of_preserve]
    · exact hwid1
    · intro r _
      rw [bumpStake]
      by_cases h : r.id ∈ addrs <;> simp [h]
  have hdn2 : db2.delegations.Nodup := by
    rw [hD2]
    refine List.Nodup.append hdn1 ?_ ?_
    · exact hndA.map (fun a b hab => by simpa using hab)
    · intro y hy1 hy2
      obtain ⟨a, _, ha⟩ := List.mem_map.mp hy2
      rw [hD1] at hy1
      have h2 := List.of_mem_filter hy1
      rw [← ha] at h2
      simp at h2
  have hWcomp : db2.witnesses =
      (db.witnesses.map (dropStake delegated amountOld)).map (bumpStake addrs amountNew) := by
    rw [hW2, hW1]
  have hmemiff : ∀ v : Addr, v ∈ delegated ↔ (caller, v) ∈ db.delegations := by
    intro v
    rw [hdel]
    constructor
    · intro hv2
      obtain ⟨d, hdmem, hdv⟩ := List.mem_map.mp hv2
      have h1 := (delegationsOf_mem db caller d).mp hdmem
      have : d = (caller, v) := by
        cases d
        simp only [Prod.mk.injEq]
        exact ⟨h1.2, hdv⟩
      exact this ▸ h1.1
    · intro hv2
      exact List.mem_map.mpr ⟨(caller, v), (delegationsOf_mem db caller _).mpr ⟨hv2, rfl⟩, rfl⟩
  refine ⟨hwid2, hdn2, ?_, ?_⟩
  · intro d hd
    rw [hD2, List.mem_append] at hd
    rcases hd with hd | hd
    · rw [hD1] at hd
      obtain ⟨w0, hw0mem, hw0id⟩ := hdw d (List.mem_of_mem_filter hd)
      refine ⟨bumpStake addrs amountNew (dropStake delegated amountOld w0), ?_, ?_⟩
      · rw [hWcomp]
        exact List.mem_map_of_mem _ (List.mem_map_of_mem _ hw0mem)
      · rw [bumpStake_id, dropStake_id]
        exact hw0id
    · obtain ⟨a, hamem, ha⟩ := List.mem_map.mp hd
      obtain ⟨w1, hw1mem, hw1id⟩ := hEx a hamem
      refine ⟨bumpStake addrs amountNew w1, ?_, ?_⟩
      · rw [hW2]
        exact List.mem_map_of_mem _ hw1mem
      · rw [bumpStake_id, hw1id, ← ha]
  · intro w2 hw2
    rw [hWcomp] at hw2
    obtain ⟨w1, hw1mem, hbw⟩ := List.mem_map.mp hw2
    obtain ⟨w0, hw0mem, hdw0⟩ := List.mem_map.mp hw1mem
    have hid1 : w1.id = w0.id := by
      rw [← hdw0, dropStake_id]
    have hid2 : w2.id = w0.id := by
      rw [← hbw, bumpStake_id, hid1]
    have hsplit := sumDelegatedStake_split_caller st0 db.delegations caller w0.id hdn
    have hp2w0 := hP2 w0 hw0mem
    have hsum2 : sumDelegatedStake stFin db2.delegations w0.id =
        sumDelegatedStake st0 (db.delegations.filter (fun d => decide (¬ d.1 = caller))) w0.id +
          (if w0.id ∈ addrs then amountNew else 0) := by
      rw [hD2, sumDelegatedStake_append, hD1]
      congr 1
      · apply sumDelegatedStake_congr
        intro d hdmem
        have h2 := List.of_mem_filter hdmem
        exact hFinO d.1 (by simpa using h2)
      · rw [sumDelegatedStake_map_addrs _ _ _ _ hndA, hFinC]
    rw [hid2, hsum2]
    by_cases hdl : w0.id ∈ delegated
    · obtain ⟨wb, hwbmem, hwbid, hwble⟩ := hB ((caller, w0.id))
        ((delegationsOf_mem db caller _).mpr ⟨(hmemiff w0.id).mp hdl, rfl⟩)
      have hwb0 : wb = w0 := mem_id_unique db.witnesses hwid wb hwbmem w0 hw0mem hwbid
      rw [hwb0] at hwble
      have hstake1 : w1.stake = w0.stake - amountOld := by
        rw [← hdw0, dropStake, if_pos hdl]
      have hin : (caller, w0.id) ∈ db.delegations := (hmemiff w0.id).mp hdl
      rw [if_pos hin, hOld] at hsplit
      by_cases hadd : w0.id ∈ addrs
      · have hstake2 : w2.stake = w1.stake + amountNew := by
          rw [← hbw, bumpStake, if_pos (hid1 ▸ hadd)]
        rw [if_pos hadd, hstake2, hstake1]
        omega
      · have hstake2 : w2.stake = w1.stake := by
          rw [← hbw, bumpStake, if_neg (by rw [hid1]; exact hadd)]
        rw [if_neg hadd, hstake2, hstake1]
        omega
    · have hnin : ¬ (caller, w0.id) ∈ db.delegations := fun hcon => hdl ((hmemiff w0.id).mpr hcon)
      rw [if_neg hnin] at hsplit
      have hstake1 : w1.stake = w0.stake := by
        rw [← hdw0, dropStake, if_neg hdl]
      by_cases hadd : w0.id ∈ addrs
      · have hstake2 : w2.stake = w1.stake + amountNew := by
          rw [← hbw, bumpStake, if_pos (hid1 ▸ hadd)]
        rw [if_pos hadd, hstake2, hstake1]
        omega
      · have hstake2 : w2.stake = w1.stake := by
          rw [← hbw, bumpStake, if_neg (by rw [hid1]; exact hadd)]
        rw [if_neg hadd, hstake2, hstake1]
        omega

theorem claimRun_tables (s : EvmState) (caller now : Nat) (s2 : EvmState)
    (h : claimRun s caller now = .ok s2) :
    s2.db.witnesses = s.db.witnesses ∧ s2.db.staked = s.db.staked ∧
      s2.db.delegations = s.db.delegations := by
  rw [claimRun] at h
  by_cases hz : ((claimablesOfAsc s.db caller).filter
      (fun c => decide (c.timestamp ≤ now)) |>.map Claimable.amount).sum = 0
  · rw [if_pos hz, Except.ok.injEq] at h
    subst h
    exact ⟨rfl, rfl, rfl⟩
  · rw [if_neg hz] at h
    by_cases hb : s.bal precompiledSystemContract <
        ((claimablesOfAsc s.db caller).filter
          (fun c => decide (c.timestamp ≤ now)) |>.map Claimable.amount).sum * precisionFactor
    · rw [if_pos hb] at h
      exact absurd h (by simp)
    · rw [if_neg hb, Except.ok.injEq] at h
      subst h
      exact ⟨rfl, rfl, rfl⟩

/-- The structural table invariants needed alongside P2: witness ids are
unique, delegation rows are unique, and every delegation points at an
existing witness row. -/
def WF (db : EbakusDb) : Prop :=
  (db.witnesses.map Witness.id).Nodup ∧
  db.delegations.Nodup ∧
  (∀ d ∈ db.delegations, ∃ w ∈ db.witnesses, w.id = d.2)

theorem stakedAmount_of_findStaked (db : EbakusDb) (caller : Addr) (st : Staked)
    (h : findStaked db caller = some st) : stakedAmount db.staked caller = st.amount := by
  unfold findStaked at h
  unfold stakedAmount
  rw [h]

theorem stakedAmount_of_findStaked_none (db : EbakusDb) (caller : Addr)
    (h : findStaked db caller = none) : stakedAmount db.staked caller = 0 := by
  unfold findStaked at h
  unfold stakedAmount
  rw [h]

theorem stakeDelegationsStep_spec (db : EbakusDb) (caller amount : Nat) (db' : EbakusDb)
    (h : stakeDelegationsStep db caller amount = .ok db') :
    ∃ delegated db1 db2,
      unvoteRun db caller (stakedAmount db.staked caller) = .ok (delegated, db1) ∧
      voteRun db1 caller delegated (stakedAmount db.staked caller + amount) = .ok db2 ∧
      db' = { db2 with staked :=
        (upsertBy Staked.id db2.staked ⟨caller, stakedAmount db.staked caller + amount⟩) } := by
  rw [stakeDelegationsStep] at h
  cases hfs : findStaked db caller with
  | some staked =>
    rw [hfs] at h
    have hsa : stakedAmount db.staked caller = staked.amount :=
      stakedAmount_of_findStaked db caller staked hfs
    have hsid : staked.id = caller := by
      unfold findStaked at hfs
      simpa using List.find?_some hfs
    simp only [exceptBindOkIff, exceptMapErrorOkIff] at h
    obtain ⟨⟨delegated, db1⟩, hu, h2⟩ := h
    obtain ⟨db2, hv, h3⟩ := h2
    rw [exceptPureEq, Except.ok.injEq] at h3
    refine ⟨delegated, db1, db2, by rw [hsa]; exact hu, by rw [hsa]; exact hv, ?_⟩
    rw [← h3, hsa]
    have : ({ staked with amount := staked.amount + amount } : Staked) =
        ⟨caller, staked.amount + amount⟩ := by
      cases staked
      simp only [Staked.mk.injEq]
      exact ⟨hsid, trivial⟩
    rw [this]
  | none =>
    rw [hfs] at h
    have hsa : stakedAmount db.staked caller = 0 :=
      stakedAmount_of_findStaked_none db caller hfs
    simp only [exceptBindOkIff, exceptMapErrorOkIff] at h
    obtain ⟨⟨delegated, db1⟩, hu, h2⟩ := h
    obtain ⟨db2, hv, h3⟩ := h2
    rw [exceptPureEq, Except.ok.injEq] at h3
    refine ⟨delegated, db1, db2, by rw [hsa]; exact hu, ?_, ?_⟩
    · rw [hsa, Nat.zero_add]
      exact hv
    · rw [← h3, hsa, Nat.zero_add]

theorem unvoteRun_delegated_nodup (db : EbakusDb) (caller : Addr) (amount : Nat)
    (delegated : List Addr) (db1 : EbakusDb)
    (hok : unvoteRun db caller amount = .ok (delegated, db1))
    (hwid : (db.witnesses.map Witness.id).Nodup) (hdn : db.delegations.Nodup) :
    delegated.Nodup := by
  obtain ⟨hdel, _, _, _⟩ := unvoteRun_effect db caller amount delegated db1 hok hwid hdn
  rw [hdel]
  exact snd_nodup_of_same_fst caller _ (delegationsOf_nodup db caller hdn)
    (delegationsOf_fst db caller)

theorem sysVoteRun_wfP2 (s : EvmState) (caller : Addr) (addrs : List Addr) (s2 : EvmState)
    (h : sysVoteRun s caller addrs = .ok s2)
    (hwf : WF s.db) (hp2 : P2 s.db) (hnd : addrs.Nodup) : WF s2.db ∧ P2 s2.db := by
  rw [sysVoteRun] at h
  cases hfs : findStaked s.db caller with
  | none =>
    rw [hfs] at h
    exact absurd h (by simp [exceptThrowEq, exceptBindErr])
  | some staked =>
    rw [hfs] at h
    simp only [exceptPureBind, exceptBindOkIff, exceptMapErrorOkIff] at h
    obtain ⟨⟨delegated, db1⟩, hu, h2⟩ := h
    obtain ⟨db4, hv, h3⟩ := h2
    rw [exceptPureEq, Except.ok.injEq] at h3
    subst h3
    have hu3 := unvoteRun_tables _ caller _ _ hu
    have hv4 := voteRun_tables _ caller addrs _ _ hv
    have hOld := stakedAmount_of_findStaked s.db caller staked hfs
    have hmain := unvote_vote_P2 s.db caller s.db.staked s.db.staked staked.amount
      staked.amount addrs delegated db1 db4 hwf.1 hwf.2.1 hwf.2.2
      (fun w hw => hp2 w hw) hOld hOld (fun o _ => rfl) hnd hu hv
    refine ⟨⟨hmain.1, hmain.2.1, hmain.2.2.1⟩, ?_⟩
    intro w hw
    have hsum := hmain.2.2.2 w hw
    show w.stake = sumDelegatedStake db4.staked db4.delegations w.id
    rw [show db4.staked = s.db.staked from by rw [hv4.1, hu3.1]]
    exact hsum

theorem sysUnvoteRun_wfP2 (s : EvmState) (caller : Addr) (s2 : EvmState)
    (h : sysUnvoteRun s caller = .ok s2)
    (hwf : WF s.db) (hp2 : P2 s.db) : WF s2.db ∧ P2 s2.db := by
  rw [sysUnvoteRun] at h
  cases hfs : findStaked s.db caller with
  | none =>
    rw [hfs] at h
    exact absurd h (by simp [exceptThrowEq, exceptBindErr])
  | some staked =>
    rw [hfs] at h
    simp only [exceptPureBind, exceptBindOkIff, exceptMapErrorOkIff] at h
    obtain ⟨⟨delegated, db1⟩, hu, h2⟩ := h
    rw [exceptPureEq, Except.ok.injEq] at h2
    subst h2
    have hu3 := unvoteRun_tables _ caller _ _ hu
    have hOld := stakedAmount_of_findStaked s.db caller staked hfs
    have hv : voteRun db1 caller [] staked.amount = .ok db1 := rfl
    have hmain := unvote_vote_P2 s.db caller s.db.staked s.db.staked staked.amount
      staked.amount [] delegated db1 db1 hwf.1 hwf.2.1 hwf.2.2
      (fun w hw => hp2 w hw) hOld hOld (fun o _ => rfl) (by simp) hu hv
    refine ⟨⟨hmain.1, hmain.2.1, hmain.2.2.1⟩, ?_⟩
    intro w hw
    have hsum := hmain.2.2.2 w hw
    show w.stake = sumDelegatedStake db1.staked db1.delegations w.id
    rw [show db1.staked = s.db.staked from hu3.1]
    exact hsum

theorem sumDelegatedStake_eq_zero (st : List Staked) (dl : List DelegationId) (w : Addr)
    (h : ∀ d ∈ dl, ¬ d.2 = w) : sumDelegatedStake st dl w = 0 := by
  unfold sumDelegatedStake
  have hnil : dl.filter (fun d => decide (d.2 = w)) = [] := by
    rw [List.filter_eq_nil_iff]
    intro d hd
    simpa using h d hd
  rw [hnil]
  rfl

theorem electEnableRun_wfP2 (s : EvmState) (caller : Addr) (enable : Bool) (s2 : EvmState)
    (h : electEnableRun s caller enable = .ok s2)
    (hwf : WF s.db) (hp2 : P2 s.db) : WF s2.db ∧ P2 s2.db := by
  rw [electEnableRun, Except.ok.injEq] at h
  cases hfs : findWitness s.db caller with
  | some w =>
    rw [hfs] at h
    simp only [Option.getD_some] at h
    subst h
    have hwida : w.id = caller := by
      unfold findWitness at hfs
      simpa using List.find?_some hfs
    set x : Witness := if enable then { w with flags := w.flags ||| ElectEnabledFlag }
      else { w with flags := 2 * (w.flags / 2) } with hx
    have hxid : x.id = caller := by
      rw [hx]
      by_cases he : enable <;> simp [he, hwida]
    have hxstake : x.stake = w.stake := by
      rw [hx]
      by_cases he : enable <;> simp [he]
    have hrepl := upsertBy_witness_replace2 s.db.witnesses caller w hfs x hxid
    refine ⟨⟨?_, hwf.2.1, ?_⟩, ?_⟩
    · show ((upsertBy Witness.id s.db.witnesses x).map Witness.id).Nodup
      rw [hrepl, map_id_of_preserve]
      · exact hwf.1
      · intro r _
        by_cases hra : r.id = caller <;> simp [hra, hxid]
    · intro d hd
      obtain ⟨w0, hw0mem, hw0id⟩ := hwf.2.2 d hd
      show ∃ w2 ∈ upsertBy Witness.id s.db.witnesses x, w2.id = d.2
      rw [hrepl]
      refine ⟨if w0.id = caller then x else w0, List.mem_map_of_mem _ hw0mem, ?_⟩
      by_cases hc : w0.id = caller
      · rw [if_pos hc, hxid, ← hw0id, hc]
      · rw [if_neg hc, hw0id]
    · intro w2 hw2
      have hw2b : w2 ∈ upsertBy Witness.id s.db.witnesses x := hw2
      rw [hrepl] at hw2b
      obtain ⟨r, hr, heq⟩ := List.mem_map.mp hw2b
      show w2.stake = sumDelegatedStake s.db.staked s.db.delegations w2.id
      by_cases hc : r.id = caller
      · have hrw : r = w := mem_id_unique s.db.witnesses hwf.1 r hr w
          (List.mem_of_find?_eq_some hfs) (by rw [hc, hwida])
        rw [if_pos hc] at heq
        rw [← heq, hxid, hxstake, ← hwida, ← hrw]
        exact hp2 r hr
      · rw [if_neg hc] at heq
        rw [← heq]
        exact hp2 r hr
  | none =>
    rw [hfs] at h
    simp only [Option.getD_none] at h
    have hnone : ∀ r ∈ s.db.witnesses, ¬ r.id = caller := by
      unfold findWitness at hfs
      rw [List.find?_eq_none] at hfs
      intro r hr
      simpa using hfs r hr
    set x : Witness := if enable then
        { id := caller, stake := 0, flags := (0 : Nat) ||| ElectEnabledFlag }
      else { id := caller, stake := 0, flags := 2 * ((0 : Nat) / 2) } with hx
    have hxid : x.id = caller := by
      rw [hx]
      by_cases he : enable <;> simp [he]
    have hxstake : x.stake = 0 := by
      rw [hx]
      by_cases he : enable <;> simp [he]
    have happ : upsertBy Witness.id s.db.witnesses x = s.db.witnesses ++ [x] := by
      rw [upsertBy, if_neg]
      simp only [List.any_eq_true, not_exists]
      intro y hy
      obtain ⟨hymem, hyid⟩ := hy
      exact hnone y hymem (by rw [show y.id = x.id from by simpa using hyid, hxid])
    subst h
    refine ⟨⟨?_, hwf.2.1, ?_⟩, ?_⟩
    · show ((upsertBy Witness.id s.db.witnesses x).map Witness.id).Nodup
      rw [happ, List.map_append]
      rw [List.nodup_append]
      refine ⟨hwf.1, by simp, ?_⟩
      intro y hy
      obtain ⟨r, hrmem, hry⟩ := List.mem_map.mp hy
      simp only [List.map_cons, List.map_nil, List.mem_singleton]
      intro hcon
      exact hnone r hrmem (by rw [show r.id = caller from by rw [hry, hcon, hxid]])
    · intro d hd
      obtain ⟨w0, hw0mem, hw0id⟩ := hwf.2.2 d hd
      show ∃ w2 ∈ upsertBy Witness.id s.db.witnesses x, w2.id = d.2
      rw [happ]
      exact ⟨w0, List.mem_append_left _ hw0mem, hw0id⟩
    · intro w2 hw2
      have hw2b : w2 ∈ upsertBy Witness.id s.db.witnesses x := hw2
      rw [happ, List.mem_append] at hw2b
      show w2.stake = sumDelegatedStake s.db.staked s.db.delegations w2.id
      rcases hw2b with hold | hnew
      · exact hp2 w2 hold
      · have hw2x : w2 = x := by simpa using hnew
        rw [hw2x, hxid, hxstake]
        symm
        apply sumDelegatedStake_eq_zero
        intro d hd hcon
        obtain ⟨w0, hw0mem, hw0id⟩ := hwf.2.2 d hd
        exact hnone w0 hw0mem (by rw [hw0id, hcon])

theorem stakeRun_wfP2 (s : EvmState) (caller amount : Nat) (s2 : EvmState)
    (h : stakeRun s caller amount = .ok s2)
    (hwf : WF s.db) (hp2 : P2 s.db) : WF s2.db ∧ P2 s2.db := by
  rw [stakeRun] at h
  by_cases h0 : amount = 0
  · rw [if_pos h0] at h
    exact absurd h (by simp [exceptThrowEq, exceptBindErr])
  · rw [if_neg h0, exceptPureBind] at h
    dsimp only at h
    rcases hcc : consumeClaimables amount (claimablesOfDesc s.db caller) 0 [] s.db.claimables
      with ⟨claimableAmount, toDelete, tbl⟩
    rw [hcc] at h
    by_cases hbal : ¬ (amount - claimableAmount ≤ s.bal caller / precisionFactor)
    · rw [if_pos hbal] at h
      exact absurd h (by simp [exceptThrowEq, exceptBindErr])
    · rw [if_neg hbal, exceptPureBind] at h
      simp only [exceptBindOkIff] at h
      obtain ⟨db4, hstep, h3⟩ := h
      obtain ⟨delegated, db1, db2, hu, hv, hdbeq⟩ :=
        stakeDelegationsStep_spec _ caller amount db4 hstep
      by_cases hwei : s.bal caller < (amount - claimableAmount) * precisionFactor
      · rw [if_pos hwei] at h3
        exact absurd h3 (by simp [exceptThrowEq, exceptBindErr])
      · rw [if_neg hwei, exceptPureBind, exceptPureEq, Except.ok.injEq] at h3
        subst h3
        have hu3 := unvoteRun_tables _ caller _ _ hu
        have hv4 := voteRun_tables _ caller delegated _ _ hv
        have hd2staked : db2.staked = s.db.staked := by
          rw [hv4.1, hu3.1]
        have hndA : delegated.Nodup :=
          unvoteRun_delegated_nodup _ caller _ delegated db1 hu hwf.1 hwf.2.1
        have hFinC : stakedAmount
            (upsertBy Staked.id db2.staked ⟨caller, stakedAmount s.db.staked caller + amount⟩)
            caller = stakedAmount s.db.staked caller + amount := by
          rw [stakedAmount_upsert]
          simp
        have hFinO : ∀ o, ¬ o = caller → stakedAmount
            (upsertBy Staked.id db2.staked ⟨caller, stakedAmount s.db.staked caller + amount⟩)
            o = stakedAmount s.db.staked o := by
          intro o ho
          rw [stakedAmount_upsert]
          rw [if_neg (by simpa using ho), hd2staked]
        have hmain := unvote_vote_P2
          { s.db with
            claimables := List.foldl (fun t c => deleteBy Claimable.cid t c.cid) tbl toDelete,
            systemStake := some (amount + s.db.systemStake.getD 0) }
          caller s.db.staked
          (upsertBy Staked.id db2.staked ⟨caller, stakedAmount s.db.staked caller + amount⟩)
          (stakedAmount s.db.staked caller) (stakedAmount s.db.staked caller + amount)
          delegated delegated db1 db2 hwf.1 hwf.2.1 hwf.2.2
          (fun w hw => hp2 w hw) rfl hFinC hFinO hndA hu hv
        rw [hdbeq]
        exact ⟨⟨hmain.1, hmain.2.1, hmain.2.2.1⟩, fun w hw => hmain.2.2.2 w hw⟩

theorem unstakeRun_wfP2 (s : EvmState) (caller amount now : Nat) (s2 : EvmState)
    (h : unstakeRun s caller amount now = .ok s2)
    (hwf : WF s.db) (hp2 : P2 s.db) : WF s2.db ∧ P2 s2.db := by
  rw [unstakeRun] at h
  cases hg : unstakeGuard (getClaimableId caller (now + unstakeVestingPeriod))
      (claimablesOfAsc s.db caller) 0 with
  | some e =>
    rw [hg] at h
    exact absurd h (by simp [exceptThrowEq, exceptBindErr])
  | none =>
    rw [hg] at h
    simp only [exceptPureBind] at h
    cases hfs : findStaked s.db caller with
    | none =>
      rw [hfs] at h
      exact absurd h (by simp [exceptThrowEq, exceptBindErr])
    | some staked =>
      rw [hfs] at h
      simp only [exceptPureBind] at h
      have hsid : staked.id = caller := by
        unfold findStaked at hfs
        simpa using List.find?_some hfs
      have hOld : stakedAmount s.db.staked caller = staked.amount :=
        stakedAmount_of_findStaked s.db caller staked hfs
      by_cases hgt : amount > staked.amount
      · rw [if_pos hgt] at h
        exact absurd h (by simp [exceptThrowEq, exceptBindErr])
      · rw [if_neg hgt] at h
        by_cases heq : amount = staked.amount
        · rw [if_pos heq] at h
          simp only [exceptPureBind, exceptBindOkIff, exceptMapErrorOkIff] at h
          obtain ⟨⟨delegated, db3⟩, hu, h2⟩ := h
          obtain ⟨db4, hv, h3⟩ := h2
          have hndA : delegated.Nodup :=
            unvoteRun_delegated_nodup _ caller _ delegated db3 hu hwf.1 hwf.2.1
          cases hs4 : db4.systemStake with
          | none =>
            simp only [hs4] at h3
            exact absurd h3 (by simp [exceptThrowEq, exceptBindErr, exceptMapErr])
          | some ss =>
            simp only [hs4, exceptPureBind] at h3
            by_cases hlt : ss < amount
            · rw [if_pos hlt] at h3
              exact absurd h3 (by simp [exceptThrowEq, exceptBindErr, exceptMapErr])
            · rw [if_neg hlt, exceptPureEq, Except.ok.injEq] at h3
              subst h3
              have hFinC : stakedAmount (deleteBy Staked.id s.db.staked staked.id) caller
                  = 0 := by
                rw [stakedAmount_deleteBy, if_pos hsid.symm]
              have hFinO : ∀ o, ¬ o = caller → stakedAmount
                  (deleteBy Staked.id s.db.staked staked.id) o =
                    stakedAmount s.db.staked o := by
                intro o ho
                rw [stakedAmount_deleteBy, if_neg (by rw [hsid]; exact ho)]
              have hmain := unvote_vote_P2
                { s.db with
                  staked := deleteBy Staked.id s.db.staked staked.id,
                  claimables := upsertBy Claimable.cid s.db.claimables
                    { idOwner := caller, idTime := now + unstakeVestingPeriod,
                      amount := amount, timestamp := now + unstakeVestingPeriod } }
                caller s.db.staked
                (deleteBy Staked.id s.db.staked staked.id)
                staked.amount 0 delegated delegated db3 db4 hwf.1 hwf.2.1 hwf.2.2
                (fun w hw => hp2 w hw) hOld hFinC hFinO hndA hu hv
              have hu3 := unvoteRun_tables _ caller _ _ hu
              have hv4 := voteRun_tables _ caller delegated _ _ hv
              have hstk : db4.staked = deleteBy Staked.id s.db.staked staked.id := by
                rw [hv4.1, hu3.1]
              refine ⟨⟨hmain.1, hmain.2.1, hmain.2.2.1⟩, ?_⟩
              intro w hw
              show w.stake = sumDelegatedStake db4.staked db4.delegations w.id
              rw [hstk]
              exact hmain.2.2.2 w hw
        · rw [if_neg heq] at h
          simp only [exceptPureBind, exceptBindOkIff, exceptMapErrorOkIff] at h
          obtain ⟨⟨delegated, db3⟩, hu, h2⟩ := h
          obtain ⟨db4, hv, h3⟩ := h2
          have hndA : delegated.Nodup :=
            unvoteRun_delegated_nodup _ caller _ delegated db3 hu hwf.1 hwf.2.1
          cases hs4 : db4.systemStake with
          | none =>
            simp only [hs4] at h3
            exact absurd h3 (by simp [exceptThrowEq, exceptBindErr, exceptMapErr])
          | some ss =>
            simp only [hs4, exceptPureBind] at h3
            by_cases hlt : ss < amount
            · rw [if_pos hlt] at h3
              exact absurd h3 (by simp [exceptThrowEq, exceptBindErr, exceptMapErr])
            · rw [if_neg hlt, exceptPureEq, Except.ok.injEq] at h3
              subst h3
              have hFinC : stakedAmount
                  (upsertBy Staked.id s.db.staked
                    { staked with amount := staked.amount - amount })
                  caller = staked.amount - amount := by
                rw [stakedAmount_upsert]
                rw [if_pos (by simpa using hsid.symm)]
              have hFinO : ∀ o, ¬ o = caller → stakedAmount
                  (upsertBy Staked.id s.db.staked
                    { staked with amount := staked.amount - amount }) o =
                    stakedAmount s.db.staked o := by
                intro o ho
                rw [stakedAmount_upsert]
                rw [if_neg (by simpa [hsid] using ho)]
              have hmain := unvote_vote_P2
                { s.db with
                  staked := upsertBy Staked.id s.db.staked
                    { staked with amount := staked.amount - amount },
                  claimables := upsertBy Claimable.cid s.db.claimables
                    { idOwner := caller, idTime := now + unstakeVestingPeriod,
                      amount := amount, timestamp := now + unstakeVestingPeriod } }
                caller s.db.staked
                (upsertBy Staked.id s.db.staked { staked with amount := staked.amount - amount })
                staked.amount (staked.amount - amount) delegated delegated db3 db4
                hwf.1 hwf.2.1 hwf.2.2
                (fun w hw => hp2 w hw) hOld hFinC hFinO hndA hu hv
              have hu3 := unvoteRun_tables _ caller _ _ hu
              have hv4 := voteRun_tables _ caller delegated _ _ hv
              have hstk : db4.staked = upsertBy Staked.id s.db.staked
                  { staked with amount := staked.amount - amount } := by
                rw [hv4.1, hu3.1]
              refine ⟨⟨hmain.1, hmain.2.1, hmain.2.2.1⟩, ?_⟩
              intro w hw
              show w.stake = sumDelegatedStake db4.staked db4.delegations w.id
              rw [hstk]
              exact hmain.2.2.2 w hw

theorem wfP2_of_tables_eq (dbA dbB : EbakusDb) (hW : dbB.witnesses = dbA.witnesses)
    (hS : dbB.staked = dbA.staked) (hD : dbB.delegations = dbA.delegations)
    (hwf : WF dbA) (hp2 : P2 dbA) : WF dbB ∧ P2 dbB := by
  refine ⟨⟨hW ▸ hwf.1, hD ▸ hwf.2.1, ?_⟩, ?_⟩
  · intro d hd
    rw [hD] at hd
    obtain ⟨w, hwmem, hwid⟩ := hwf.2.2 d hd
    exact ⟨w, hW ▸ hwmem, hwid⟩
  · intro w hw
    rw [hW] at hw
    rw [hS, hD]
    exact hp2 w hw

theorem stepOp_wfP2 (s : EvmState) (op : Op) (hwf : WF s.db) (hp2 : P2 s.db)
    (hnd : VoteNodup op) : WF (stepOp s op).db ∧ P2 (stepOp s op).db := by
  rw [stepOp, applyCall.eq_def]
  cases hr : runOp s op with
  | error e => exact ⟨hwf, hp2⟩
  | ok s2 =>
    cases op with
    | stakeOp caller amount now =>
      rw [runOp] at hr
      simp only [exceptBindOkIff] at hr
      obtain ⟨s1, hc, hs⟩ := hr
      have ht := claimRun_tables _ _ _ _ hc
      obtain ⟨hwf1, hp21⟩ := wfP2_of_tables_eq s.db s1.db ht.1 ht.2.1 ht.2.2 hwf hp2
      exact stakeRun_wfP2 _ _ _ _ hs hwf1 hp21
    | unstakeOp caller amount now =>
      rw [runOp] at hr
      exact unstakeRun_wfP2 _ _ _ _ _ hr hwf hp2
    | claimOp caller now =>
      rw [runOp] at hr
      have ht := claimRun_tables _ _ _ _ hr
      exact wfP2_of_tables_eq s.db s2.db ht.1 ht.2.1 ht.2.2 hwf hp2
    | voteOp caller addrs =>
      rw [runOp] at hr
      exact sysVoteRun_wfP2 _ _ _ _ hr hwf hp2 hnd
    | unvoteOp caller =>
      rw [runOp] at hr
      exact sysUnvoteRun_wfP2 _ _ _ hr hwf hp2
    | electOp caller enable =>
      rw [runOp] at hr
      exact electEnableRun_wfP2 _ _ _ _ hr hwf hp2

theorem genesis_wfP2 (g : Addr) (bal0 : Addr → Nat) :
    WF (genesisState g bal0).db ∧ P2 (genesisState g bal0).db := by
  refine ⟨⟨by simp [genesisState, genesisDb], by simp [genesisState, genesisDb], ?_⟩, ?_⟩
  · intro d hd
    simp [genesisState, genesisDb] at hd
  · intro w hw
    simp only [genesisState, genesisDb] at hw ⊢
    rw [List.mem_singleton] at hw
    subst hw
    simp [sumDelegatedStake]

theorem foldl_wfP2 (ops : List Op) (hops : ∀ op ∈ ops, VoteNodup op) :
    ∀ s : EvmState, WF s.db → P2 s.db →
      WF ((ops.foldl stepOp s)).db ∧ P2 ((ops.foldl stepOp s)).db := by
  induction ops with
  | nil => intro s hwf hp2; exact ⟨hwf, hp2⟩
  | cons op rest ih =>
    intro s hwf hp2
    have hstep := stepOp_wfP2 s op hwf hp2 (hops op (by simp))
    exact ih (fun o ho => hops o (by simp [ho])) (stepOp s op) hstep.1 hstep.2

/-- C2 (amended): from genesis, after every sequence of system-contract
operations whose vote calls carry duplicate-free address lists, every Witness
row carries exactly the sum of the Staked amounts of the owners delegating to
it (invariant P2). -/
theorem witness_stake_invariant (g : Addr) (bal0 : Addr → Nat) (ops : List Op)
    (hops : ∀ op ∈ ops, VoteNodup op) :
    P2 (runOps g bal0 ops).db := by
  have hg := genesis_wfP2 g bal0
  exact (foldl_wfP2 ops hops (genesisState g bal0) hg.1 hg.2).2

/-- Initial balances for the C2 counterexample: account 10 holds 5 staking
units worth of wei. -/
def balC2 : Addr → Nat := fun a => if a = 10 then 5 * precisionFactor else 0

/-- The reachable pre-state of the C2 counterexample: from genesis (witness
7), account 10 stakes 5 units. -/
def stDup : EvmState := runOps 7 balC2 [.stakeOp 10 5 0]

/-- C2 (counterexample): from the reachable state in which account 10 has
staked 5 units, the vote call with the duplicate list [7, 7] succeeds, yet
afterwards witness 7 carries stake 10 while the delegated sum is 5; the
invariant fails for duplicate vote lists. -/
theorem vote_duplicate_cex :
    (∃ s2, sysVoteRun stDup 10 [7, 7] = .ok s2) ∧
      ¬ P2 (stepOp stDup (.voteOp 10 [7, 7])).db := by
  constructor
  · exact ⟨stepOp stDup (.voteOp 10 [7, 7]), rfl⟩
  · intro hp2
    have h7 : (⟨7, 10, 1⟩ : Witness) ∈ (stepOp stDup (.voteOp 10 [7, 7])).db.witnesses := by
      decide
    have := hp2 _ h7
    revert this
    decide

/-- C2 witness: the amended invariant theorem applied to a concrete
duplicate-free operation sequence. -/
theorem witness_stake_invariant_witness :
    P2 (runOps 7 balC2 [.stakeOp 10 5 0, .voteOp 10 [7]]).db := by
  refine witness_stake_invariant 7 balC2 [.stakeOp 10 5 0, .voteOp 10 [7]] ?_
  intro op hop
  rcases List.mem_cons.mp hop with h1 | h2
  · rw [h1]
    exact trivial
  · rw [List.mem_singleton.mp h2]
    show ([7] : List Addr).Nodup
    decide

/-- core/types/block.go:40-44. The address is a list of 20 bytes. -/
structure DelegateItem where
  pos : Nat
  delegateAddress : List Nat
  delegateNumber : Nat
  deriving Repr, DecidableEq

/-- The all-zero 20-byte address, `common.Address\x7b\x7d`. -/
def zeroAddress20 : List Nat := List.replicate 20 0

/-- core/types/block.go:48-56 EncodeRLP: the byte payload handed to rlp.Encode
is the 2-byte array [pos, number] for the zero address and the 21-byte array
[pos, address...] otherwise. -/
def DelegateItem.encodeRLP (d : DelegateItem) : List Nat :=
  if d.delegateAddress = zeroAddress20 then [d.pos, d.delegateNumber]
  else d.pos :: d.delegateAddress

/-- core/types/block.go:60-79 DecodeRLP: decode the byte payload, switch on
its length (21 = AddressLength+1 sets the address from bytes 1.., 2 sets the
number from byte 1, anything else is an error), then set pos from byte 0.
Fields not assigned keep the zero value of a freshly allocated DelegateItem. -/
def DelegateItem.decodeRLP (list : List Nat) : Except String DelegateItem :=
  if list.length = 21 then
    .ok ⟨list.headD 0, list.drop 1, 0⟩
  else if list.length = 2 then
    .ok ⟨list.headD 0, zeroAddress20, list.getD 1 0⟩
  else
    .error "invalid input size for DelegateItem"

/-- C8: a DelegateItem with the all-zero address encodes as the 2 bytes
[pos, number] and one with a nonzero address as the 21 bytes
[pos, address[20]]; decoding the encoding restores the same pos and the same
address-or-number content. -/
theorem delegate_item_roundtrip (d : DelegateItem)
    (hlen : d.delegateAddress.length = 20) :
    (d.delegateAddress = zeroAddress20 →
       d.encodeRLP = [d.pos, d.delegateNumber] ∧
       DelegateItem.decodeRLP d.encodeRLP =
         .ok ⟨d.pos, zeroAddress20, d.delegateNumber⟩) ∧
    (d.delegateAddress ≠ zeroAddress20 →
       d.encodeRLP = d.pos :: d.delegateAddress ∧
       d.encodeRLP.length = 21 ∧
       DelegateItem.decodeRLP d.encodeRLP =
         .ok ⟨d.pos, d.delegateAddress, 0⟩) := by
  constructor
  · intro hz
    refine ⟨by rw [DelegateItem.encodeRLP, if_pos hz], ?_⟩
    rw [DelegateItem.encodeRLP, if_pos hz, DelegateItem.decodeRLP]
    simp
  · intro hz
    have he : d.encodeRLP = d.pos :: d.delegateAddress := by
      rw [DelegateItem.encodeRLP, if_neg hz]
    have hl : d.encodeRLP.length = 21 := by
      rw [he, List.length_cons, hlen]
    refine ⟨he, hl, ?_⟩
    rw [DelegateItem.decodeRLP, if_pos hl, he]
    simp

/-- C8 witness: the roundtrip theorem at a concrete zero-address item and a
concrete nonzero-address item. -/
theorem delegate_item_roundtrip_witness :
    DelegateItem.decodeRLP
        (DelegateItem.encodeRLP ⟨5, zeroAddress20, 7⟩) =
      .ok ⟨5, zeroAddress20, 7⟩ ∧
    DelegateItem.decodeRLP
        (DelegateItem.encodeRLP ⟨5, 3 :: List.replicate 19 0, 0⟩) =
      .ok ⟨5, 3 :: List.replicate 19 0, 0⟩ := by
  constructor
  · exact ((delegate_item_roundtrip ⟨5, zeroAddress20, 7⟩ (by decide)).1
      (by decide)).2
  · exact ((delegate_item_roundtrip ⟨5, 3 :: List.replicate 19 0, 0⟩
      (by decide)).2 (by decide)).2.2

/-- The "Stake DESC" order clause of DelegateVotingGetDelegates
(contracts.go:363). -/
def witnessStakeDescLt (a b : Witness) : Bool := decide (b.stake < a.stake)

/-- contracts.go:377-383: the iteration loop of DelegateVotingGetDelegates.
Next is evaluated before the count test, a row with the elect bit clear is
skipped without incrementing the count. -/
def dvgdLoop (maxWitnesses : Nat) : List Witness → Nat → List Witness
  | [], _ => []
  | w :: rest, i =>
    if i < maxWitnesses then
      if w.flags &&& ElectEnabledFlag = 0 then dvgdLoop maxWitnesses rest i
      else w :: dvgdLoop maxWitnesses rest (i + 1)
    else []

/-- contracts.go:360-386 DelegateVotingGetDelegates: iterate the witness
table in stake-descending order, keeping up to maxWitnesses elect-enabled
rows. -/
def DelegateVotingGetDelegates (db : EbakusDb) (maxWitnesses : Nat) : List Witness :=
  dvgdLoop maxWitnesses (sortByLt witnessStakeDescLt db.witnesses) 0

/-- common.HashLength = 32. -/
def hashLength : Nat := 32

/-- dpos.go:589-594: one round of the uniformRandom loop builds rand from
bitsRequired bits of the hash starting at startBit (hash byte
((startBit+i)/8) % 32, bit (startBit+i) % 8, weighted 2^i). -/
def uniformRandomBits (hash : List Nat) (startBit bitsRequired : Nat) : Nat :=
  (List.range bitsRequired).foldl
    (fun acc i =>
      acc +
        ((hash.getD (((startBit + i) / 8) % hashLength) 0 >>> ((startBit + i) % 8)) % 2)
          <<< i)
    0

/-- dpos.go:588-603: the retry loop of uniformRandom; startBit grows by one
until rand < max or startBit/8 reaches the hash length (so at most 257
rounds; the fuel argument is strictly larger and never runs out). -/
def uniformRandomLoop (max : Nat) (hash : List Nat) (bitsRequired : Nat) :
    Nat → Nat → Nat
  | 0, _ => 0
  | fuel + 1, startBit =>
    let rand := uniformRandomBits hash startBit bitsRequired
    if rand < max then rand
    else if hashLength ≤ startBit / 8 then rand % max
    else uniformRandomLoop max hash bitsRequired fuel (startBit + 1)

/-- dpos.go:583-606 uniformRandom; bits.Len64(max-1) with the uint64
wraparound at max = 0. -/
def uniformRandom (max : Nat) (hash : List Nat) : Nat :=
  let bitsRequired := if max = 0 then 64 else Nat.size (max - 1)
  uniformRandomLoop max hash bitsRequired 300 0

/-- dpos.go:608-633 GetDelegates. The keccak argument stands for
crypto.Keccak256Hash of the 8-byte big-endian slot (dpos.go:626-628); the
claim does not depend on its values. Go panics are returned as errors: with
maxWitnesses = 0 the bonus branch slices delegates[maxWitnesses-1:] with the
uint64 wraparound index 2^64-1 (out of range), and with turnBlockCount = 0
the slot division (header.Time+1)/turnBlockCount divides by zero. -/
def GetDelegates (keccak : Nat → List Nat) (headerTime : Nat) (db : EbakusDb)
    (maxWitnesses maxBonusWitnesses turnBlockCount : Nat) :
    Except String (List Witness) :=
  let maxWitnessesToLoad :=
    if maxBonusWitnesses > 0 then maxWitnesses + maxBonusWitnesses else maxWitnesses
  let delegates := DelegateVotingGetDelegates db maxWitnessesToLoad
  if delegates.length > maxWitnesses then
    if maxWitnesses = 0 then
      .error "runtime error: slice bounds out of range"
    else
      let bonusCandidateDelegates := delegates.drop (maxWitnesses - 1)
      let delegates2 := delegates.take (maxWitnesses - 1)
      if turnBlockCount = 0 then
        .error "runtime error: integer divide by zero"
      else
        let slot := (headerTime + 1) / turnBlockCount
        let r := uniformRandom bonusCandidateDelegates.length (keccak slot)
        .ok (delegates2 ++ [bonusCandidateDelegates.getD r ⟨0, 0, 0⟩])
  else
    .ok delegates

/-- Go int(float64) conversion: truncation toward zero. -/
def truncToInt (q : ℚ) : Int := if 0 ≤ q then q.floor else q.ceil

/-- dpos.go:505-524 getSignerAtSlot: load the delegates first, then return
the zero address when DelegateCount or TurnBlockCount is zero, otherwise
index the list at int(slot/turnBlockCount) mod delegateCount (float
arithmetic modelled exactly over the rationals; the Go % and int conversion
truncate toward zero, and a negative index would panic). -/
def getSignerAtSlot (keccak : Nat → List Nat) (headerTime : Nat) (db : EbakusDb)
    (delegateCount bonusDelegateCount turnBlockCount : Nat) (slot : ℚ) :
    Except String Addr :=
  (GetDelegates keccak headerTime db delegateCount bonusDelegateCount turnBlockCount).bind
    fun delegates =>
      if delegateCount = 0 ∨ turnBlockCount = 0 then .ok zeroAddr
      else
        let slot2 := slot / (turnBlockCount : ℚ)
        let s := Int.tmod (truncToInt slot2) (delegateCount : Int)
        if hcond : s < (delegates.length : Int) then
          if hs : 0 ≤ s then
            .ok (delegates.get ⟨s.toNat, by omega⟩).id
          else
            .error "runtime error: index out of range"
        else .ok zeroAddr

theorem exceptBindOkM {ε α β : Type} (a : α) (k : α → Except ε β) :
    Except.bind (Except.ok a) k = k a := rfl

/-- A placeholder hash function for concrete instances (the claim does not
depend on hash values). -/
def keccakZero : Nat → List Nat := fun _ => List.replicate hashLength 0

/-- A store with one elect-enabled witness. -/
def dbC9 : EbakusDb :=
  { witnesses := [{ id := 7, stake := 0, flags := ElectEnabledFlag }]
    staked := []
    claimables := []
    delegations := []
    systemStake := none }

/-- A store with two elect-enabled witnesses. -/
def dbC9b : EbakusDb :=
  { witnesses := [{ id := 7, stake := 0, flags := ElectEnabledFlag },
                  { id := 8, stake := 0, flags := ElectEnabledFlag }]
    staked := []
    claimables := []
    delegations := []
    systemStake := none }

/-- C9 (counterexample): on the path where the loaded witness list is longer
than n_main the lookup does not return the zero address, it panics. With
n_main = 0, one bonus slot and one elect-enabled witness the bonus branch
slices delegates[2^64-1:]; with n_main = 1, turn_block_count = 0 and two
elect-enabled witnesses it divides by zero. -/
theorem signer_zero_config_cex :
    getSignerAtSlot keccakZero 0 dbC9 0 1 5 0 =
        .error "runtime error: slice bounds out of range" ∧
      getSignerAtSlot keccakZero 0 dbC9b 1 1 0 0 =
        .error "runtime error: integer divide by zero" :=
  ⟨rfl, rfl⟩

/-- C9 (amended): whenever n_main = 0 or turn_block_count = 0 and the witness
list loaded from the store is not longer than n_main, the in-turn signer
lookup returns the zero address without failing. -/
theorem signer_zero_config (keccak : Nat → List Nat) (headerTime : Nat)
    (db : EbakusDb) (dc bc tc : Nat) (slot : ℚ)
    (hzero : dc = 0 ∨ tc = 0)
    (hlen : (DelegateVotingGetDelegates db
        (if bc > 0 then dc + bc else dc)).length ≤ dc) :
    getSignerAtSlot keccak headerTime db dc bc tc slot = .ok zeroAddr := by
  have hdel : GetDelegates keccak headerTime db dc bc tc =
      .ok (DelegateVotingGetDelegates db (if bc > 0 then dc + bc else dc)) := by
    rw [GetDelegates]
    dsimp only
    rw [if_neg (by omega)]
  rw [getSignerAtSlot, hdel, exceptBindOkM]
  dsimp only
  rw [if_pos hzero]

/-- C9 witness: the amended theorem at a concrete zero-count configuration. -/
theorem signer_zero_config_witness :
    getSignerAtSlot keccakZero 0 (genesisDb 3) 0 0 5 0 = .ok zeroAddr :=
  signer_zero_config keccakZero 0 (genesisDb 3) 0 0 5 0 (Or.inl rfl) (by decide)

/-- Modelled from the spec: minimal big-endian byte string of an unsigned
integer (empty for zero), as the rlp package encodes big.Int and uint64
values; the rlp package itself is not under src/. -/
def beBytes (n : Nat) : List Nat :=
  if h : n = 0 then [] else beBytes (n / 256) ++ [n % 256]
decreasing_by exact Nat.div_lt_self (Nat.pos_of_ne_zero h) (by norm_num)

/-- Modelled from the spec: the RLP encoding of a byte string — a single
byte below 0x80 stands alone, up to 55 bytes get the 0x80+len prefix, longer
strings the 0xb7+lenlen prefix and the big-endian length. -/
def rlpStr (payload : List Nat) : List Nat :=
  if payload.length = 1 ∧ payload.getD 0 0 < 128 then payload
  else if payload.length ≤ 55 then (128 + payload.length) :: payload
  else (183 + (beBytes payload.length).length) :: (beBytes payload.length ++ payload)

/-- Modelled from the spec: the RLP encoding of a list given the
concatenation of its already-encoded items (0xc0+len, or 0xf7+lenlen with
the big-endian length). -/
def rlpList (payload : List Nat) : List Nat :=
  if payload.length ≤ 55 then (192 + payload.length) :: payload
  else (247 + (beBytes payload.length).length) :: (beBytes payload.length ++ payload)

/-- core/types/block.go Header, restricted to the fields encodeSigHeader
reads plus the signature: hashes and bloom are byte lists, number (big.Int)
and the uint64 fields are Nat. -/
structure Header where
  parentHash : List Nat
  root : List Nat
  txHash : List Nat
  receiptHash : List Nat
  bloom : List Nat
  number : Nat
  gasLimit : Nat
  gasUsed : Nat
  time : Nat
  delegateDiff : List DelegateItem
  signature : List Nat

/-- dpos.go:653-669 encodeSigHeader: the RLP list of exactly parent-hash,
state-root, tx-root, receipts-root, bloom, number, gas-limit, gas-used, time
and the delegate-diff (whose items use DelegateItem.EncodeRLP); the
signature is not part of the preimage. -/
def encodeSigHeader (h : Header) : List Nat :=
  rlpList
    (rlpStr h.parentHash ++ rlpStr h.root ++ rlpStr h.txHash ++
      rlpStr h.receiptHash ++ rlpStr h.bloom ++ rlpStr (beBytes h.number) ++
      rlpStr (beBytes h.gasLimit) ++ rlpStr (beBytes h.gasUsed) ++
      rlpStr (beBytes h.time) ++
      rlpList ((h.delegateDiff.map fun d => rlpStr d.encodeRLP).flatten))

/-- dpos.go:647-651 RLP: the byte payload handed to the signer callback. -/
def RLPsig (h : Header) : List Nat := encodeSigHeader h

/-- The secp256k1/keccak primitives, abstract: keccak256, signing a 32-byte
digest with a private key, public-key recovery from digest and signature, and
the public key of a private key. The crypto package is not under src/. -/
structure SigScheme where
  keccak : List Nat → List Nat
  sign : Nat → List Nat → List Nat
  ecrecoverPub : List Nat → List Nat → Except String (List Nat)
  pub : Nat → List Nat

/-- dpos.go:638-643 sigHash: keccak256 of the encodeSigHeader bytes. -/
def sigHash (S : SigScheme) (h : Header) : List Nat := S.keccak (RLPsig h)

/-- dpos.go:135: the address of a recovered public key is
keccak256(pubkey[1:])[12:] (20 bytes). -/
def pubToAddr (S : SigScheme) (pubkey : List Nat) : List Nat :=
  ((S.keccak (pubkey.drop 1)).drop 12).take 20

/-- The address of the signing key: pubToAddr of its public key. -/
def signerAddr (S : SigScheme) (key : Nat) : List Nat := pubToAddr S (S.pub key)

/-- dpos.go:427-458 Seal, with the chain interaction stripped to the
number-zero guard: the signer callback receives the RLP(header) bytes and
its signature is stored in the header. Modelled from the spec: the wallet
behind signFn (accounts package, not under src/) signs the keccak256 digest
of the payload with the key. -/
def dposSeal (S : SigScheme) (key : Nat) (header : Header) : Except String Header :=
  if header.number = 0 then .error "errUnknownBlock"
  else .ok { header with signature := S.sign key (S.keccak (RLPsig header)) }

/-- dpos.go:117-139 ecrecover without the ARC cache: reject signatures
shorter than 65 bytes, recover the public key from sigHash and the
signature, return its address. -/
def dposEcrecover (S : SigScheme) (h : Header) : Except String (List Nat) :=
  if h.signature.length < 65 then .error "errMissingSignature"
  else (S.ecrecoverPub (sigHash S h) h.signature).map (fun pubkey => pubToAddr S pubkey)

/-- C7: sealing signs exactly the keccak digest of the RLP encoding of the
ten-field tuple (parent-hash, state-root, tx-root, receipts-root, bloom,
number, gas-limit, gas-used, time, delegate-diff), and — for a crypto scheme
whose recovery inverts signing on this digest and returns 65-byte
signatures — recovering the author of the sealed header yields the signer's
address. -/
theorem seal_sign_recover (S : SigScheme) (key : Nat) (header : Header)
    (hnum : header.number ≠ 0)
    (hsiglen : 65 ≤ (S.sign key (S.keccak (RLPsig header))).length)
    (hrt : S.ecrecoverPub (S.keccak (RLPsig header))
        (S.sign key (S.keccak (RLPsig header))) = .ok (S.pub key)) :
    ∃ sealed, dposSeal S key header = .ok sealed ∧
      sealed.signature =
        S.sign key (S.keccak (rlpList
          (rlpStr header.parentHash ++ rlpStr header.root ++
            rlpStr header.txHash ++ rlpStr header.receiptHash ++
            rlpStr header.bloom ++ rlpStr (beBytes header.number) ++
            rlpStr (beBytes header.gasLimit) ++ rlpStr (beBytes header.gasUsed) ++
            rlpStr (beBytes header.time) ++
            rlpList ((header.delegateDiff.map fun d => rlpStr d.encodeRLP).flatten)))) ∧
      dposEcrecover S sealed = .ok (signerAddr S key) := by
  refine ⟨{ header with signature := S.sign key (S.keccak (RLPsig header)) }, ?_, rfl, ?_⟩
  · rw [dposSeal, if_neg hnum]
  · rw [dposEcrecover, if_neg (by simpa using Nat.not_lt.mpr hsiglen)]
    have hpre : sigHash S { header with signature := S.sign key (S.keccak (RLPsig header)) } =
        S.keccak (RLPsig header) := rfl
    rw [hpre]
    show (S.ecrecoverPub (S.keccak (RLPsig header))
        (S.sign key (S.keccak (RLPsig header)))).map (fun pubkey => pubToAddr S pubkey) =
      .ok (signerAddr S key)
    rw [hrt]
    rfl

/-- A toy crypto scheme making the round-trip hypotheses concrete: the
digest is a constant, the signature is 65 zero bytes followed by the key
byte, recovery reads the key byte back. -/
def toySig : SigScheme :=
  { keccak := fun _ => List.replicate 32 1
    sign := fun k _ => List.replicate 65 0 ++ [k]
    ecrecoverPub := fun _ sig => .ok [4, sig.getD 65 0]
    pub := fun k => [4, k] }

/-- A concrete header for the C7 witness. -/
def hdrC7 : Header :=
  { parentHash := List.replicate 32 0
    root := List.replicate 32 0
    txHash := List.replicate 32 0
    receiptHash := List.replicate 32 0
    bloom := List.replicate 256 0
    number := 1
    gasLimit := 0
    gasUsed := 0
    time := 0
    delegateDiff := []
    signature := [] }

/-- C7 witness: the seal-then-recover theorem at the toy scheme, key 9 and a
concrete header. -/
theorem seal_sign_recover_witness :
    ∃ sealed, dposSeal toySig 9 hdrC7 = .ok sealed ∧
      sealed.signature =
        toySig.sign 9 (toySig.keccak (rlpList
          (rlpStr hdrC7.parentHash ++ rlpStr hdrC7.root ++
            rlpStr hdrC7.txHash ++ rlpStr hdrC7.receiptHash ++
            rlpStr hdrC7.bloom ++ rlpStr (beBytes hdrC7.number) ++
            rlpStr (beBytes hdrC7.gasLimit) ++ rlpStr (beBytes hdrC7.gasUsed) ++
            rlpStr (beBytes hdrC7.time) ++
            rlpList ((hdrC7.delegateDiff.map fun d => rlpStr d.encodeRLP).flatten)))) ∧
      dposEcrecover toySig sealed = .ok (signerAddr toySig 9) :=
  seal_sign_recover toySig 9 hdrC7 (by decide) (by simp [toySig]) rfl

/-- core/types/transaction.go: a transaction as the mempool ordering sees
it — the recovered sender (Sender(signer, tx), modelled as a stored field),
AccountNonce, and the cached VirtualDifficulty value (a totally ordered
quantity standing in for the big.Float). -/
structure TxC3 where
  sender : Addr
  nonce : Nat
  vd : Nat
  deriving Repr, DecidableEq

/-- transaction.go:430-434 TxByPrice: the head transaction of one account
(the `from` field is named sender; the snapshot pointer is dropped as the
difficulty is carried by the transaction). -/
structure HeadEntry where
  tx : TxC3
  sender : Addr
  deriving Repr, DecidableEq

/-- transaction.go:439-444 TxsByPrice.Less: entry i sorts before j when its
virtual difficulty compares greater (Cmp == 1), a max-heap order. -/
def txsByPriceLess (a b : HeadEntry) : Bool := decide (b.tx.vd < a.tx.vd)

/-- Default values used by the positional list accessors (never read at
in-range indices). -/
def dvTx : TxC3 := { sender := 0, nonce := 0, vd := 0 }

def dvHead : HeadEntry := { tx := dvTx, sender := 0 }

/-- Swap of two positions of a list (container/heap's h.Swap(i, j)). -/
def listSwap {α : Type} (dv : α) (l : List α) (i j : Nat) : List α :=
  (l.set i (l.getD j dv)).set j (l.getD i dv)

/-- Go container/heap down(h, i0, n): sift the element at i0 down below n,
returning the list and whether the element moved. The fuel is always called
with more than n, which bounds the strictly increasing index. -/
def heapDownGo {α : Type} (less : α → α → Bool) (dv : α) :
    Nat → List α → Nat → Nat → List α × Bool
  | 0, l, _, _ => (l, false)
  | fuel + 1, l, i, n =>
    let j1 := 2 * i + 1
    if n ≤ j1 then (l, false)
    else
      let j := if j1 + 1 < n && less (l.getD (j1 + 1) dv) (l.getD j1 dv) then j1 + 1 else j1
      if ! less (l.getD j dv) (l.getD i dv) then (l, false)
      else
        let l2 := listSwap dv l i j
        ((heapDownGo less dv fuel l2 j n).1, true)

def heapDown {α : Type} (less : α → α → Bool) (dv : α) (l : List α) (i n : Nat) :
    List α × Bool :=
  heapDownGo less dv (n + 1) l i n

/-- Go container/heap up(h, j): sift the element at j up to its parent
(j-1)/2 while it compares less. -/
def heapUpGo {α : Type} (less : α → α → Bool) (dv : α) :
    Nat → List α → Nat → List α
  | 0, l, _ => l
  | fuel + 1, l, j =>
    let i := (j - 1) / 2
    if i = j || ! less (l.getD j dv) (l.getD i dv) then l
    else heapUpGo less dv fuel (listSwap dv l i j) i

/-- Go container/heap Fix(h, i): sift down, and when the element did not
move, sift up. -/
def heapFix {α : Type} (less : α → α → Bool) (dv : α) (l : List α) (i : Nat) :
    List α :=
  let d := heapDown less dv l i l.length
  if d.2 then d.1 else heapUpGo less dv (i + 1) d.1 i

/-- Go container/heap Init(h): down for i from n/2-1 to 0. -/
def heapInit {α : Type} (less : α → α → Bool) (dv : α) (l : List α) : List α :=
  (List.range (l.length / 2)).reverse.foldl
    (fun acc i => (heapDown less dv acc i l.length).1) l

/-- Go container/heap Pop(h): swap the root with the last element, sift the
new root down over the shortened range, remove the last slot (the interface
Pop of transaction.go:452-458). On an empty heap Go would panic; callers
guard with Peek. -/
def heapPopList {α : Type} (less : α → α → Bool) (dv : α) (l : List α) : List α :=
  match l with
  | [] => []
  | _ :: _ =>
    let n := l.length - 1
    ((heapDown less dv (listSwap dv l 0 n) 0 n).1).take n

/-- transaction.go:463-467 TransactionsByVirtualDifficultyAndNonce: the
per-account nonce-sorted remainder map and the head heap. -/
structure TxPool where
  txs : List (Addr × List TxC3)
  heads : List HeadEntry

/-- Go map read. -/
def mapGet (m : List (Addr × List TxC3)) (a : Addr) : Option (List TxC3) :=
  (m.find? (fun e => decide (e.1 = a))).map (fun e => e.2)

/-- Go map write (replace the entry when the key exists, append it
otherwise). -/
def mapSet (m : List (Addr × List TxC3)) (a : Addr) (v : List TxC3) :
    List (Addr × List TxC3) :=
  if (m.find? (fun e => decide (e.1 = a))).isSome then
    m.map (fun e => if e.1 = a then (e.1, v) else e)
  else m ++ [(a, v)]

/-- Go map delete. -/
def mapDelete (m : List (Addr × List TxC3)) (a : Addr) : List (Addr × List TxC3) :=
  m.filter (fun e => ! decide (e.1 = a))

/-- transaction.go:474-500 NewTransactionsByVirtualDifficultyAndNonce: for
each account append its head transaction to the heads slice (tagged with the
map key), replace the account's map entry under the recovered sender with
the tail, delete the key on a sender mismatch, then heap-Init the heads.
The input assoc list stands for one iteration order of the Go map; an empty
account list (on which Go would panic at accTxs[0]) is skipped. -/
def newTxStep (st : List (Addr × List TxC3) × List HeadEntry)
    (e : Addr × List TxC3) : List (Addr × List TxC3) × List HeadEntry :=
  match e.2 with
  | [] => st
  | t :: rest =>
    let heads2 := st.2 ++ [{ tx := t, sender := e.1 }]
    let acc := t.sender
    let m2 := mapSet st.1 acc rest
    let m3 := if e.1 ≠ acc then mapDelete m2 e.1 else m2
    (m3, heads2)

def newTxSet (m : List (Addr × List TxC3)) : TxPool :=
  let st := m.foldl newTxStep (m, [])
  { txs := st.1, heads := heapInit txsByPriceLess dvHead st.2 }

/-- transaction.go:502-508 Peek. -/
def peek (p : TxPool) : Option TxC3 := p.heads.head?.map (fun h => h.tx)

/-- transaction.go:510-519 Shift: look up the remaining transactions of the
head's recovered sender; when nonempty move the first into the head slot in
place and Fix position 0, otherwise heap-Pop the head. On an empty heap Go
would panic; callers guard with Peek. -/
def shift (p : TxPool) : TxPool :=
  match p.heads with
  | [] => p
  | h :: _ =>
    let acc := h.tx.sender
    match mapGet p.txs acc with
    | some (t :: rest) =>
      { txs := mapSet p.txs acc rest
        heads := heapFix txsByPriceLess dvHead (p.heads.set 0 { h with tx := t }) 0 }
    | _ => { p with heads := heapPopList txsByPriceLess dvHead p.heads }

/-- transaction.go:521-526 Pop: heap-Pop the best transaction without
replacement. -/
def popTx (p : TxPool) : TxPool :=
  { p with heads := heapPopList txsByPriceLess dvHead p.heads }

/-- One mempool consumer step: Shift or Pop. -/
inductive PoolOp : Type where
  | shiftOp : PoolOp
  | popOp : PoolOp
  deriving Repr, DecidableEq

/-- The consumer loop of the block producer: observe Peek, stop when it is
empty, otherwise emit the observed transaction and apply the next
Shift/Pop. -/
def runPool : TxPool → List PoolOp → List TxC3
  | _, [] => []
  | p, op :: rest =>
    match peek p with
    | none => []
    | some tx =>
      tx :: runPool (match op with | .shiftOp => shift p | .popOp => popTx p) rest

/-- Strictly ascending account nonces. -/
def NonceAsc (l : List TxC3) : Prop := l.Pairwise (fun a b => a.nonce < b.nonce)

/-- The remaining transaction stream of a head entry: its head transaction
followed by the account's map remainder. -/
def streamOf (p : TxPool) (h : HeadEntry) : List TxC3 :=
  h.tx :: (mapGet p.txs h.sender).getD []

/-- Every transaction of a head's stream carries the head's sender. -/
def SenderStream (p : TxPool) (h : HeadEntry) : Prop :=
  ∀ t ∈ streamOf p h, t.sender = h.sender

/-- The pool invariant: head senders are distinct and every head's stream is
sender-correct and strictly nonce-ascending. -/
def PoolInv (p : TxPool) : Prop :=
  (p.heads.map (fun h => h.sender)).Nodup ∧
    ∀ h ∈ p.heads, SenderStream p h ∧ NonceAsc (streamOf p h)

/-- The remaining stream of a sender: the stream of its head entry, empty
when the sender has none. -/
def streamOfSender (p : TxPool) (a : Addr) : List TxC3 :=
  match p.heads.find? (fun h => decide (h.sender = a)) with
  | some h => streamOf p h
  | none => []

/-! ### Heap operations permute the underlying list -/

theorem cons_set_perm {α : Type} (dv : α) (a : α) :
    ∀ (t : List α) (j : Nat), j < t.length →
      (t.getD j dv :: t.set j a).Perm (a :: t) := by
  intro t
  induction t with
  | nil => intro j hj; simp at hj
  | cons c u ih =>
    intro j hj
    cases j with
    | zero =>
      simp only [List.getD_cons_zero, List.set_cons_zero]
      exact List.Perm.swap a c u
    | succ k =>
      simp only [List.getD_cons_succ, List.set_cons_succ]
      have h1 : (u.getD k dv :: c :: u.set k a).Perm (c :: u.getD k dv :: u.set k a) :=
        List.Perm.swap c (u.getD k dv) (u.set k a)
      have h2 : (c :: u.getD k dv :: u.set k a).Perm (c :: a :: u) :=
        List.Perm.cons c (ih k (by simpa using hj))
      have h3 : (c :: a :: u).Perm (a :: c :: u) := List.Perm.swap a c u
      exact (h1.trans h2).trans h3

theorem listSwap_perm {α : Type} (dv : α) :
    ∀ (l : List α) (i j : Nat), i < l.length → j < l.length →
      (listSwap dv l i j).Perm l := by
  intro l
  induction l with
  | nil => intro i j hi _; simp at hi
  | cons a t ih =>
    intro i j hi hj
    cases i with
    | zero =>
      cases j with
      | zero =>
        simp [listSwap]
      | succ m =>
        have hm : m < t.length := by simpa using hj
        show (((a :: t).set 0 ((a :: t).getD (m + 1) dv)).set (m + 1)
          ((a :: t).getD 0 dv)).Perm (a :: t)
        simp only [List.getD_cons_succ, List.getD_cons_zero, List.set_cons_zero,
          List.set_cons_succ]
        exact cons_set_perm dv a t m hm
    | succ k =>
      cases j with
      | zero =>
        have hk : k < t.length := by simpa using hi
        show (((a :: t).set (k + 1) ((a :: t).getD 0 dv)).set 0
          ((a :: t).getD (k + 1) dv)).Perm (a :: t)
        simp only [List.getD_cons_succ, List.getD_cons_zero, List.set_cons_succ,
          List.set_cons_zero]
        exact cons_set_perm dv a t k hk
      | succ m =>
        have hk : k < t.length := by simpa using hi
        have hm : m < t.length := by simpa using hj
        show (((a :: t).set (k + 1) ((a :: t).getD (m + 1) dv)).set (m + 1)
          ((a :: t).getD (k + 1) dv)).Perm (a :: t)
        simp only [List.getD_cons_succ, List.set_cons_succ]
        exact List.Perm.cons a (ih k m hk hm)

theorem listSwap_length {α : Type} (dv : α) (l : List α) (i j : Nat) :
    (listSwap dv l i j).length = l.length := by
  simp [listSwap]

theorem heapJ_lt {α : Type} (less : α → α → Bool) (dv : α) (l : List α) (i n : Nat)
    (h1 : ¬ n ≤ 2 * i + 1) :
    (if (decide (2 * i + 1 + 1 < n) &&
          less (l.getD (2 * i + 1 + 1) dv) (l.getD (2 * i + 1) dv)) = true
      then 2 * i + 1 + 1 else 2 * i + 1) < n := by
  split
  next hc => exact of_decide_eq_true (Bool.and_eq_true _ _ ▸ hc).1
  next hc => omega

theorem heapDownGo_perm {α : Type} (less : α → α → Bool) (dv : α) :
    ∀ (fuel : Nat) (l : List α) (i n : Nat), n ≤ l.length →
      ((heapDownGo less dv fuel l i n).1).Perm l := by
  intro fuel
  induction fuel with
  | zero => intro l i n _; exact List.Perm.refl l
  | succ f ih =>
    intro l i n hn
    rw [heapDownGo]
    dsimp only
    split
    next h1 => exact List.Perm.refl l
    next h1 =>
      split
      next h2 =>
        have hj : 2 * i + 1 + 1 < n :=
          of_decide_eq_true (Bool.and_eq_true _ _ ▸ h2).1
        split
        next h3 => exact List.Perm.refl l
        next h3 =>
          dsimp only
          refine (ih _ _ n ?_).trans
            (listSwap_perm dv l i _ (by omega) (by omega))
          rw [listSwap_length]; exact hn
      next h2 =>
        split
        next h3 => exact List.Perm.refl l
        next h3 =>
          dsimp only
          refine (ih _ _ n ?_).trans
            (listSwap_perm dv l i _ (by omega) (by omega))
          rw [listSwap_length]; exact hn

theorem heapDownGo_length {α : Type} (less : α → α → Bool) (dv : α) :
    ∀ (fuel : Nat) (l : List α) (i n : Nat),
      ((heapDownGo less dv fuel l i n).1).length = l.length := by
  intro fuel
  induction fuel with
  | zero => intro l i n; rfl
  | succ f ih =>
    intro l i n
    rw [heapDownGo]
    dsimp only
    split
    next h1 => rfl
    next h1 =>
      split
      next h2 =>
        split
        next h3 => rfl
        next h3 => dsimp only; rw [ih, listSwap_length]
      next h2 =>
        split
        next h3 => rfl
        next h3 => dsimp only; rw [ih, listSwap_length]

theorem heapUpGo_perm {α : Type} (less : α → α → Bool) (dv : α) :
    ∀ (fuel : Nat) (l : List α) (j : Nat), j < l.length →
      (heapUpGo less dv fuel l j).Perm l := by
  intro fuel
  induction fuel with
  | zero => intro l j _; exact List.Perm.refl l
  | succ f ih =>
    intro l j hj
    rw [heapUpGo]
    split
    next h1 => exact List.Perm.refl l
    next h1 =>
      have hne : (j - 1) / 2 ≠ j := by
        intro hc
        apply h1
        rw [hc]
        simp
      have hlt : (j - 1) / 2 < j := by omega
      have hlen : (j - 1) / 2 < (listSwap dv l ((j - 1) / 2) j).length := by
        rw [listSwap_length]; omega
      exact (ih _ _ hlen).trans (listSwap_perm dv l ((j - 1) / 2) j (by omega) hj)

theorem heapFix_perm {α : Type} (less : α → α → Bool) (dv : α) (l : List α) (i : Nat)
    (hi : i < l.length) : (heapFix less dv l i).Perm l := by
  rw [heapFix]
  split
  next hd => exact heapDownGo_perm less dv _ l i l.length le_rfl
  next hd =>
    have h1 : (heapDown less dv l i l.length).1.Perm l :=
      heapDownGo_perm less dv _ l i l.length le_rfl
    have hlen : i < ((heapDown less dv l i l.length).1).length := by
      rw [heapDown, heapDownGo_length]; exact hi
    exact (heapUpGo_perm less dv _ _ i hlen).trans h1

theorem heapInit_perm {α : Type} (less : α → α → Bool) (dv : α) (l : List α) :
    (heapInit less dv l).Perm l := by
  rw [heapInit]
  have hgen : ∀ (idx : List Nat) (acc : List α), acc.length = l.length →
      (idx.foldl (fun acc i => (heapDown less dv acc i l.length).1) acc).Perm acc := by
    intro idx
    induction idx with
    | nil => intro acc _; exact List.Perm.refl acc
    | cons i rest ih =>
      intro acc hlen
      have h1 : ((heapDown less dv acc i l.length).1).Perm acc :=
        heapDownGo_perm less dv _ acc i l.length (by omega)
      have h2 : ((heapDown less dv acc i l.length).1).length = l.length := by
        rw [heapDown, heapDownGo_length]; exact hlen
      exact (ih _ h2).trans h1
  exact hgen _ l rfl

theorem set_drop {α : Type} (x : α) :
    ∀ (l : List α) (i n : Nat), i < n → (l.set i x).drop n = l.drop n := by
  intro l
  induction l with
  | nil => intro i n _; simp
  | cons a t ih =>
    intro i n hin
    cases i with
    | zero =>
      cases n with
      | zero => omega
      | succ m => simp
    | succ k =>
      cases n with
      | zero => omega
      | succ m =>
        simp only [List.set_cons_succ, List.drop_succ_cons]
        exact ih k m (by omega)

theorem heapDownGo_drop {α : Type} (less : α → α → Bool) (dv : α) :
    ∀ (fuel : Nat) (l : List α) (i n : Nat),
      ((heapDownGo less dv fuel l i n).1).drop n = l.drop n := by
  intro fuel
  induction fuel with
  | zero => intro l i n; rfl
  | succ f ih =>
    intro l i n
    rw [heapDownGo]
    dsimp only
    split
    next h1 => rfl
    next h1 =>
      split
      next h2 =>
        have hj : 2 * i + 1 + 1 < n :=
          of_decide_eq_true (Bool.and_eq_true _ _ ▸ h2).1
        split
        next h3 => rfl
        next h3 =>
          dsimp only
          rw [ih, listSwap, set_drop _ _ _ _ hj, set_drop _ _ _ _ (by omega)]
      next h2 =>
        split
        next h3 => rfl
        next h3 =>
          dsimp only
          rw [ih, listSwap, set_drop _ _ _ _ (by omega), set_drop _ _ _ _ (by omega)]

theorem set_last_drop {α : Type} (x : α) :
    ∀ (l : List α) (n : Nat), l.length = n + 1 → (l.set n x).drop n = [x] := by
  intro l
  induction l with
  | nil => intro n h; simp at h
  | cons a t ih =>
    intro n h
    cases n with
    | zero =>
      have ht : t = [] := List.eq_nil_of_length_eq_zero (by simpa using h)
      subst ht
      simp
    | succ m =>
      simp only [List.set_cons_succ, List.drop_succ_cons]
      exact ih m (by simpa using h)

theorem heapPopList_perm {α : Type} (less : α → α → Bool) (dv : α)
    (hd : α) (hs : List α) :
    (heapPopList less dv (hd :: hs)).Perm hs := by
  rw [heapPopList]
  have hlen : (hd :: hs).length - 1 = hs.length := by simp
  rw [hlen]
  have hl2len : (listSwap dv (hd :: hs) 0 hs.length).length = hs.length + 1 := by
    rw [listSwap_length]; simp
  have hperm2 : (listSwap dv (hd :: hs) 0 hs.length).Perm (hd :: hs) :=
    listSwap_perm dv (hd :: hs) 0 hs.length (by simp) (by simp)
  have hperm3 : ((heapDown less dv (listSwap dv (hd :: hs) 0 hs.length) 0 hs.length).1).Perm
      (listSwap dv (hd :: hs) 0 hs.length) :=
    heapDownGo_perm less dv _ _ 0 hs.length (by omega)
  have hdrop3 : ((heapDown less dv (listSwap dv (hd :: hs) 0 hs.length) 0 hs.length).1).drop
      hs.length = (listSwap dv (hd :: hs) 0 hs.length).drop hs.length := by
    rw [heapDown]
    exact heapDownGo_drop less dv _ _ 0 hs.length
  have hdrop2 : (listSwap dv (hd :: hs) 0 hs.length).drop hs.length = [hd] := by
    rw [listSwap]
    apply set_last_drop
    simp
  have hsplit : ((heapDown less dv (listSwap dv (hd :: hs) 0 hs.length) 0 hs.length).1).take
        hs.length ++ [hd] =
      (heapDown less dv (listSwap dv (hd :: hs) 0 hs.length) 0 hs.length).1 := by
    conv_lhs => rw [← hdrop2, ← hdrop3]
    exact List.take_append_drop hs.length _
  have hfull : (((heapDown less dv (listSwap dv (hd :: hs) 0 hs.length) 0 hs.length).1).take
      hs.length ++ [hd]).Perm (hd :: hs) := by
    rw [hsplit]
    exact hperm3.trans hperm2
  have hcomm : (hd :: ((heapDown less dv (listSwap dv (hd :: hs) 0 hs.length) 0
      hs.length).1).take hs.length).Perm (hd :: hs) :=
    (List.perm_append_singleton hd _).symm.trans hfull
  exact hcomm.cons_inv

/-! ### Map lemmas for the pool -/

theorem find?_append_gen {α : Type} (p : α → Bool) (l1 l2 : List α) :
    (l1 ++ l2).find? p =
      match l1.find? p with
      | some x => some x
      | none => l2.find? p := by
  induction l1 with
  | nil => rfl
  | cons a t ih =>
    by_cases hp : p a = true
    · rw [List.cons_append, List.find?_cons_of_pos _ hp, List.find?_cons_of_pos _ hp]
    · rw [List.cons_append, List.find?_cons_of_neg _ (by simpa using hp),
        List.find?_cons_of_neg _ (by simpa using hp), ih]

theorem mapped_fst (a : Addr) (v : List TxC3) (e : Addr × List TxC3) :
    ((if e.1 = a then (e.1, v) else e) : Addr × List TxC3).1 = e.1 := by
  by_cases h : e.1 = a <;> simp [h]

theorem find?_mapSet_map (m : List (Addr × List TxC3)) (a : Addr) (v : List TxC3)
    (b : Addr) :
    (m.map (fun e => if e.1 = a then (e.1, v) else e)).find?
        (fun e => decide (e.1 = b)) =
      (m.find? (fun e => decide (e.1 = b))).map
        (fun e => if e.1 = a then (e.1, v) else e) := by
  induction m with
  | nil => rfl
  | cons e rest ih =>
    rw [List.map_cons, List.find?, List.find?, mapped_fst]
    by_cases hb : e.1 = b
    · rw [decide_eq_true hb]
      rfl
    · rw [decide_eq_false hb]
      exact ih

theorem mapGet_mapSet_self (m : List (Addr × List TxC3)) (a : Addr) (v : List TxC3) :
    mapGet (mapSet m a v) a = some v := by
  rw [mapSet]
  split
  next hex =>
    rw [mapGet, find?_mapSet_map]
    rcases hfind : m.find? (fun e => decide (e.1 = a)) with _ | e0
    · rw [hfind] at hex; simp at hex
    · have hp := List.find?_some hfind
      have he0 : e0.1 = a := by simpa using hp
      rw [hfind]
      simp [he0]
  next hex =>
    rw [mapGet, find?_append_gen]
    rcases hfind : m.find? (fun e => decide (e.1 = a)) with _ | e0
    · rw [hfind]
      dsimp only
      simp [List.find?]
    · rw [hfind] at hex; simp at hex

theorem mapGet_mapSet_ne (m : List (Addr × List TxC3)) (a : Addr) (v : List TxC3)
    (b : Addr) (hne : b ≠ a) :
    mapGet (mapSet m a v) b = mapGet m b := by
  rw [mapSet]
  split
  next hex =>
    rw [mapGet, find?_mapSet_map, mapGet]
    rcases hfind : m.find? (fun e => decide (e.1 = b)) with _ | e0
    · rw [hfind]; rfl
    · have hp := List.find?_some hfind
      have he0 : e0.1 = b := by simpa using hp
      have hna : ¬ e0.1 = a := by rw [he0]; exact hne
      rw [hfind]
      simp [hna]
  next hex =>
    rw [mapGet, find?_append_gen, mapGet]
    have hsingle : (([(a, v)] : List (Addr × List TxC3)).find?
        (fun e => decide (e.1 = b))) = none := by
      simp [List.find?, Ne.symm hne]
    rcases hfind : m.find? (fun e => decide (e.1 = b)) with _ | e0
    · rw [hfind]
      dsimp only
      rw [hsingle]
    · rw [hfind]

theorem map_key_unique {α β : Type} [DecidableEq β] (f : α → β) :
    ∀ (l : List α), (l.map f).Nodup → ∀ x ∈ l, ∀ y ∈ l, f x = f y → x = y := by
  intro l
  induction l with
  | nil => intro _ x hx; simp at hx
  | cons a t ih =>
    intro hnd x hx y hy hf
    rw [List.map_cons, List.nodup_cons] at hnd
    rcases List.mem_cons.mp hx with rfl | hx2
    · rcases List.mem_cons.mp hy with rfl | hy2
      · rfl
      · exact absurd (hf ▸ List.mem_map_of_mem f hy2) hnd.1
    · rcases List.mem_cons.mp hy with rfl | hy2
      · exact absurd (hf ▸ List.mem_map_of_mem f hx2) hnd.1
      · exact ih hnd.2 x hx2 y hy2 hf

theorem streamOfSender_eq (p : TxPool) (a : Addr) (h : HeadEntry)
    (hnd : (p.heads.map (fun h => h.sender)).Nodup) (hh : h ∈ p.heads)
    (ha : h.sender = a) : streamOfSender p a = streamOf p h := by
  rw [streamOfSender]
  rcases hfind : p.heads.find? (fun h => decide (h.sender = a)) with _ | h'
  · exact absurd (List.find?_eq_none.mp hfind h hh (decide_eq_true ha)) (by simp)
  · have hmem := List.mem_of_find?_eq_some hfind
    have hp := List.find?_some hfind
    have hpred : h'.sender = a := by simpa using hp
    have heq : h' = h := map_key_unique (fun h => h.sender) p.heads hnd h' hmem h hh
      (by show h'.sender = h.sender; rw [hpred, ha])
    rw [hfind, heq]

theorem streamOfSender_eq_nil (p : TxPool) (a : Addr)
    (ha : ∀ h ∈ p.heads, h.sender ≠ a) : streamOfSender p a = [] := by
  rw [streamOfSender]
  rcases hfind : p.heads.find? (fun h => decide (h.sender = a)) with _ | h'
  · rw [hfind]
  · have hmem := List.mem_of_find?_eq_some hfind
    have hp := List.find?_some hfind
    have hpred : h'.sender = a := by simpa using hp
    exact absurd hpred (ha h' hmem)

/-! ### Characterization of the pool constructor -/

theorem newFold_heads :
    ∀ (todo : List (Addr × List TxC3)) (mm : List (Addr × List TxC3))
      (hh : List HeadEntry), (∀ e ∈ todo, e.2 ≠ []) →
      (todo.foldl newTxStep (mm, hh)).2 =
        hh ++ todo.map (fun e => { tx := e.2.headD dvTx, sender := e.1 }) := by
  intro todo
  induction todo with
  | nil => intro mm hh _; simp
  | cons e rest ih =>
    intro mm hh hne
    rcases he : e.2 with _ | ⟨t, r⟩
    · exact absurd he (hne e (by simp))
    · rw [List.foldl_cons]
      have hstep : newTxStep (mm, hh) e =
          ((if e.1 ≠ t.sender then mapDelete (mapSet mm t.sender r) e.1
            else mapSet mm t.sender r), hh ++ [{ tx := t, sender := e.1 }]) := by
        rw [newTxStep, he]
      rw [hstep, ih _ _ (fun x hx => hne x (by simp [hx]))]
      rw [List.map_cons, he]
      simp

theorem newFold_txs :
    ∀ (todo : List (Addr × List TxC3)) (mm : List (Addr × List TxC3))
      (hh : List HeadEntry) (a : Addr),
      (∀ e ∈ todo, e.2 ≠ []) → (∀ e ∈ todo, ∀ t ∈ e.2, t.sender = e.1) →
      mapGet (todo.foldl newTxStep (mm, hh)).1 a =
        match todo.reverse.find? (fun e => decide (e.1 = a)) with
        | some e => some e.2.tail
        | none => mapGet mm a := by
  intro todo
  induction todo with
  | nil => intro mm hh a _ _; simp
  | cons e rest ih =>
    intro mm hh a hne hsend
    rcases he : e.2 with _ | ⟨t, r⟩
    · exact absurd he (hne e (by simp))
    · have hts : t.sender = e.1 := hsend e (by simp) t (by rw [he]; simp)
      rw [List.foldl_cons]
      have hstep : newTxStep (mm, hh) e =
          (mapSet mm e.1 r, hh ++ [{ tx := t, sender := e.1 }]) := by
        rw [newTxStep, he]
        dsimp only
        rw [hts]
        simp
      rw [hstep, ih _ _ a (fun x hx => hne x (by simp [hx]))
        (fun x hx => hsend x (by simp [hx]))]
      rw [List.reverse_cons, find?_append_gen]
      rcases hfind : rest.reverse.find? (fun e => decide (e.1 = a)) with _ | e0
      · rw [hfind]
        dsimp only
        rw [List.find?]
        by_cases hea : e.1 = a
        · rw [decide_eq_true hea]
          dsimp only
          subst hea
          rw [mapGet_mapSet_self, he]
          rfl
        · rw [decide_eq_false hea]
          dsimp only
          exact mapGet_mapSet_ne mm e.1 r a (fun hc => hea hc.symm)
      · rw [hfind]

theorem newTxSet_heads_perm (m : List (Addr × List TxC3))
    (hne : ∀ e ∈ m, e.2 ≠ []) :
    (newTxSet m).heads.Perm
      (m.map (fun e => { tx := e.2.headD dvTx, sender := e.1 })) := by
  rw [newTxSet]
  dsimp only
  rw [newFold_heads m m [] hne]
  rw [List.nil_append]
  exact heapInit_perm _ _ _

theorem newTxSet_txs_get (m : List (Addr × List TxC3)) (a : Addr)
    (hne : ∀ e ∈ m, e.2 ≠ []) (hsend : ∀ e ∈ m, ∀ t ∈ e.2, t.sender = e.1) :
    mapGet (newTxSet m).txs a =
      match m.reverse.find? (fun e => decide (e.1 = a)) with
      | some e => some e.2.tail
      | none => mapGet m a := by
  rw [newTxSet]
  dsimp only
  exact newFold_txs m m [] a hne hsend

theorem find?_eq_some_of_unique {α β : Type} [DecidableEq β] (f : α → β)
    (l : List α) (hnd : (l.map f).Nodup) (x : α) (hx : x ∈ l) (b : β)
    (hb : f x = b) : l.find? (fun y => decide (f y = b)) = some x := by
  rcases hfind : l.find? (fun y => decide (f y = b)) with _ | y
  · exact absurd (List.find?_eq_none.mp hfind x hx (decide_eq_true hb)) (by simp)
  · have hmem := List.mem_of_find?_eq_some hfind
    have hp := List.find?_some hfind
    have hfy : f y = b := by simpa using hp
    rw [map_key_unique f l hnd y hmem x hx (by rw [hfy, hb])]

theorem newTxSet_inv (m : List (Addr × List TxC3))
    (hkeys : (m.map (fun e => e.1)).Nodup)
    (hne : ∀ e ∈ m, e.2 ≠ [])
    (hsend : ∀ e ∈ m, ∀ t ∈ e.2, t.sender = e.1)
    (hasc : ∀ e ∈ m, NonceAsc e.2) : PoolInv (newTxSet m) := by
  have hperm := newTxSet_heads_perm m hne
  have hstream : ∀ e ∈ m,
      streamOf (newTxSet m) { tx := e.2.headD dvTx, sender := e.1 } = e.2 := by
    intro e he
    rw [streamOf]
    dsimp only
    have hget : mapGet (newTxSet m).txs e.1 = some e.2.tail := by
      rw [newTxSet_txs_get m e.1 hne hsend]
      have hfind : m.reverse.find? (fun y => decide (y.1 = e.1)) = some e := by
        have := find?_eq_some_of_unique (fun y => y.1) m.reverse
          (by rw [List.map_reverse]; exact List.nodup_reverse.mpr hkeys) e
          (List.mem_reverse.mpr he) e.1 rfl
        exact this
      rw [hfind]
    rw [hget]
    rcases hcons : e.2 with _ | ⟨t, r⟩
    · exact absurd hcons (hne e he)
    · simp
  constructor
  · have h2 := hperm.map (fun h => h.sender)
    rw [List.map_map] at h2
    exact h2.nodup_iff.mpr hkeys
  · intro h hh
    have hh2 := hperm.mem_iff.mp hh
    obtain ⟨e, he, heq⟩ := List.mem_map.mp hh2
    subst heq
    constructor
    · intro t ht
      rw [hstream e he] at ht
      exact hsend e he t ht
    · rw [hstream e he]
      exact hasc e he

/-! ### Shift/Pop preserve the pool invariant -/

theorem shift_cons (T : List (Addr × List TxC3)) (hd : HeadEntry)
    (hs : List HeadEntry) :
    shift { txs := T, heads := hd :: hs } =
      match mapGet T hd.tx.sender with
      | some (t :: rest) =>
        { txs := mapSet T hd.tx.sender rest
          heads := heapFix txsByPriceLess dvHead ({ hd with tx := t } :: hs) 0 }
      | _ => { txs := T, heads := heapPopList txsByPriceLess dvHead (hd :: hs) } := by
  rw [shift]
  dsimp only
  rcases mapGet T hd.tx.sender with _ | ⟨_ | ⟨t, rest⟩⟩ <;> rfl

theorem streamOf_txs_eq (p q : TxPool) (h : q.txs = p.txs) (x : HeadEntry) :
    streamOf q x = streamOf p x := by
  rw [streamOf, streamOf, h]

theorem popHead_inv (p : TxPool) (hd : HeadEntry) (hs : List HeadEntry)
    (hinv : PoolInv p) (hheads : p.heads = hd :: hs)
    (q : TxPool) (hq : q.txs = p.txs)
    (hqh : q.heads = heapPopList txsByPriceLess dvHead p.heads) :
    PoolInv q ∧ streamOfSender q hd.sender = [] ∧
      ∀ a, a ≠ hd.sender → streamOfSender q a = streamOfSender p a := by
  have hperm : q.heads.Perm hs := by
    rw [hqh, hheads]
    exact heapPopList_perm _ _ hd hs
  have hnp : (p.heads.map (fun h => h.sender)).Nodup := hinv.1
  rw [hheads, List.map_cons, List.nodup_cons] at hnp
  have hsub : ∀ h ∈ q.heads, h ∈ hs := fun h hh => hperm.mem_iff.mp hh
  have hq_ne : ∀ h ∈ q.heads, h.sender ≠ hd.sender := by
    intro h hh hc
    exact hnp.1 (hc ▸ List.mem_map_of_mem (fun h => h.sender) (hsub h hh))
  have hinvq : PoolInv q := by
    constructor
    · exact (hperm.map (fun h => h.sender)).nodup_iff.mpr hnp.2
    · intro h hh
      have hmem : h ∈ p.heads := by rw [hheads]; exact List.mem_cons_of_mem hd (hsub h hh)
      have hold := hinv.2 h hmem
      constructor
      · intro x hx
        rw [streamOf_txs_eq p q hq] at hx
        exact hold.1 x hx
      · rw [streamOf_txs_eq p q hq]
        exact hold.2
  refine ⟨hinvq, streamOfSender_eq_nil q hd.sender hq_ne, ?_⟩
  intro a ha
  by_cases hc : ∃ h ∈ hs, h.sender = a
  · obtain ⟨h, hh, hsa⟩ := hc
    have h1 : streamOfSender q a = streamOf q h :=
      streamOfSender_eq q a h hinvq.1 (hperm.mem_iff.mpr hh) hsa
    have h2 : streamOfSender p a = streamOf p h :=
      streamOfSender_eq p a h hinv.1 (by rw [hheads]; exact List.mem_cons_of_mem hd hh) hsa
    rw [h1, h2, streamOf_txs_eq p q hq]
  · push_neg at hc
    have h1 : streamOfSender q a = [] :=
      streamOfSender_eq_nil q a (fun h hh => hc h (hsub h hh))
    have h2 : streamOfSender p a = [] := by
      apply streamOfSender_eq_nil
      intro h hh
      rw [hheads] at hh
      rcases List.mem_cons.mp hh with rfl | hh2
      · exact fun hcc => ha hcc.symm
      · exact hc h hh2
    rw [h1, h2]

theorem shift_inv_A (p : TxPool) (hd : HeadEntry) (hs : List HeadEntry)
    (t : TxC3) (rest : List TxC3) (hinv : PoolInv p) (hheads : p.heads = hd :: hs)
    (hget : mapGet p.txs hd.sender = some (t :: rest)) :
    PoolInv (shift p) ∧ streamOfSender (shift p) hd.sender = t :: rest ∧
      ∀ a, a ≠ hd.sender → streamOfSender (shift p) a = streamOfSender p a := by
  have hdmem : hd ∈ p.heads := by rw [hheads]; exact List.mem_cons_self hd hs
  have hsendhd : hd.tx.sender = hd.sender :=
    (hinv.2 hd hdmem).1 hd.tx (List.mem_cons_self _ _)
  have holdstream : streamOf p hd = hd.tx :: t :: rest := by
    rw [streamOf, hget]
    rfl
  have hp : p = { txs := p.txs, heads := hd :: hs } := by rw [← hheads]
  have hshift : shift p =
      { txs := mapSet p.txs hd.sender rest
        heads := heapFix txsByPriceLess dvHead ({ hd with tx := t } :: hs) 0 } := by
    conv_lhs => rw [hp]
    rw [shift_cons, hsendhd, hget]
  have hperm : (shift p).heads.Perm ({ hd with tx := t } :: hs) := by
    rw [hshift]
    exact heapFix_perm _ _ _ 0 (by simp)
  have htxs2 : (shift p).txs = mapSet p.txs hd.sender rest := by rw [hshift]
  have hnp : (p.heads.map (fun h => h.sender)).Nodup := hinv.1
  rw [hheads, List.map_cons, List.nodup_cons] at hnp
  have hs_ne : ∀ h ∈ hs, h.sender ≠ hd.sender := by
    intro h hh hc
    exact hnp.1 (hc ▸ List.mem_map_of_mem (fun h => h.sender) hh)
  have hstream_hd : streamOf (shift p) { hd with tx := t } = t :: rest := by
    rw [streamOf]
    show t :: (mapGet (shift p).txs hd.sender).getD [] = t :: rest
    rw [htxs2, mapGet_mapSet_self]
    rfl
  have hstream_hs : ∀ h ∈ hs, streamOf (shift p) h = streamOf p h := by
    intro h hh
    rw [streamOf, streamOf, htxs2, mapGet_mapSet_ne _ _ _ _ (hs_ne h hh)]
  have hinvq : PoolInv (shift p) := by
    constructor
    · have h2 := hperm.map (fun h => h.sender)
      apply h2.nodup_iff.mpr
      rw [List.map_cons]
      show (hd.sender :: hs.map (fun h => h.sender)).Nodup
      exact List.nodup_cons.mpr hnp
    · intro h hh
      rcases List.mem_cons.mp (hperm.mem_iff.mp hh) with rfl | hh2
      · constructor
        · intro x hx
          rw [hstream_hd] at hx
          have hx2 : x ∈ streamOf p hd := by
            rw [holdstream]
            exact List.mem_cons_of_mem hd.tx hx
          exact (hinv.2 hd hdmem).1 x hx2
        · rw [hstream_hd]
          have hold := (hinv.2 hd hdmem).2
          rw [holdstream] at hold
          rw [NonceAsc] at hold ⊢
          exact (List.pairwise_cons.mp hold).2
      · have hmem : h ∈ p.heads := by
          rw [hheads]
          exact List.mem_cons_of_mem hd hh2
        have hold := hinv.2 h hmem
        constructor
        · intro x hx
          rw [hstream_hs h hh2] at hx
          exact hold.1 x hx
        · rw [NonceAsc, hstream_hs h hh2]
          exact hold.2
  refine ⟨hinvq, ?_, ?_⟩
  · have h1 : streamOfSender (shift p) hd.sender = streamOf (shift p) { hd with tx := t } :=
      streamOfSender_eq (shift p) hd.sender { hd with tx := t } hinvq.1
        (hperm.mem_iff.mpr (List.mem_cons_self _ hs)) rfl
    rw [h1, hstream_hd]
  · intro a ha
    by_cases hc : ∃ h ∈ hs, h.sender = a
    · obtain ⟨h, hh, hsa⟩ := hc
      have h1 : streamOfSender (shift p) a = streamOf (shift p) h :=
        streamOfSender_eq (shift p) a h hinvq.1
          (hperm.mem_iff.mpr (List.mem_cons_of_mem _ hh)) hsa
      have h2 : streamOfSender p a = streamOf p h :=
        streamOfSender_eq p a h hinv.1
          (by rw [hheads]; exact List.mem_cons_of_mem hd hh) hsa
      rw [h1, h2, hstream_hs h hh]
    · push_neg at hc
      have h1 : streamOfSender (shift p) a = [] := by
        apply streamOfSender_eq_nil
        intro h hh
        rcases List.mem_cons.mp (hperm.mem_iff.mp hh) with rfl | hh2
        · exact fun hcc => ha hcc.symm
        · exact hc h hh2
      have h2 : streamOfSender p a = [] := by
        apply streamOfSender_eq_nil
        intro h hh
        rw [hheads] at hh
        rcases List.mem_cons.mp hh with rfl | hh2
        · exact fun hcc => ha hcc.symm
        · exact hc h hh2
      rw [h1, h2]

theorem peek_some (p : TxPool) (tx : TxC3) (h : peek p = some tx) :
    ∃ hd hs, p.heads = hd :: hs ∧ hd.tx = tx := by
  rw [peek] at h
  rcases hh : p.heads with _ | ⟨hd, hs⟩
  · rw [hh] at h; simp at h
  · rw [hh] at h
    simp only [List.head?_cons, Option.map_some] at h
    exact ⟨hd, hs, rfl, by injection h⟩

theorem nonceAsc_streamOfSender (p : TxPool) (hinv : PoolInv p) (a : Addr) :
    NonceAsc (streamOfSender p a) := by
  rw [streamOfSender]
  rcases hfind : p.heads.find? (fun h => decide (h.sender = a)) with _ | h
  · rw [hfind]
    exact List.Pairwise.nil
  · rw [hfind]
    exact (hinv.2 h (List.mem_of_find?_eq_some hfind)).2

theorem runPool_step_sublist (rest : List PoolOp) (p p2 : TxPool) (tx : TxC3)
    (hd : HeadEntry) (hs : List HeadEntry)
    (ih : ∀ q : TxPool, PoolInv q → ∀ a : Addr,
      ((runPool q rest).filter (fun t => decide (t.sender = a))).Sublist
        (streamOfSender q a))
    (hheads : p.heads = hd :: hs) (htx : hd.tx = tx) (hinv : PoolInv p)
    (hstep1 : PoolInv p2)
    (hstep2 : (streamOfSender p2 hd.sender).Sublist
      ((mapGet p.txs hd.sender).getD []))
    (hstep3 : ∀ b, b ≠ hd.sender → streamOfSender p2 b = streamOfSender p b)
    (a : Addr) :
    ((tx :: runPool p2 rest).filter (fun t => decide (t.sender = a))).Sublist
      (streamOfSender p a) := by
  have htxsend : tx.sender = hd.sender := by
    rw [← htx]
    exact (hinv.2 hd (hheads ▸ List.mem_cons_self hd hs)).1 hd.tx
      (List.mem_cons_self _ _)
  have hsub2 := ih p2 hstep1
  by_cases ha : a = hd.sender
  · subst ha
    rw [List.filter_cons, if_pos (by simpa using htxsend)]
    have hps : streamOfSender p hd.sender = streamOf p hd :=
      streamOfSender_eq p hd.sender hd hinv.1
        (hheads ▸ List.mem_cons_self hd hs) rfl
    rw [hps, streamOf, ← htx]
    exact List.Sublist.cons₂ hd.tx ((hsub2 hd.sender).trans hstep2)
  · rw [List.filter_cons,
      if_neg (by simp only [decide_eq_true_eq, htxsend]; exact fun hc => ha hc.symm)]
    have hh := hsub2 a
    rw [hstep3 a (fun hc => ha hc)] at hh
    exact hh

theorem runPool_filter_sublist (ops : List PoolOp) :
    ∀ p : TxPool, PoolInv p → ∀ a : Addr,
      ((runPool p ops).filter (fun t => decide (t.sender = a))).Sublist
        (streamOfSender p a) := by
  induction ops with
  | nil => intro p _ a; exact List.nil_sublist _
  | cons op rest ih =>
    intro p hinv a
    rcases hpk : peek p with _ | tx
    · have hrun : runPool p (op :: rest) = [] := by
        cases op
        · rw [show runPool p (.shiftOp :: rest) =
            (match peek p with
              | none => []
              | some tx => tx :: runPool (shift p) rest) from rfl, hpk]
        · rw [show runPool p (.popOp :: rest) =
            (match peek p with
              | none => []
              | some tx => tx :: runPool (popTx p) rest) from rfl, hpk]
      rw [hrun]
      exact List.nil_sublist _
    · obtain ⟨hd, hs, hheads, htx⟩ := peek_some p tx hpk
      have hsendhd : hd.tx.sender = hd.sender :=
        (hinv.2 hd (hheads ▸ List.mem_cons_self hd hs)).1 hd.tx
          (List.mem_cons_self _ _)
      cases op with
      | popOp =>
        have hrun : runPool p (.popOp :: rest) = tx :: runPool (popTx p) rest := by
          rw [show runPool p (.popOp :: rest) =
            (match peek p with
              | none => []
              | some tx => tx :: runPool (popTx p) rest) from rfl, hpk]
        rw [hrun]
        have hpop := popHead_inv p hd hs hinv hheads (popTx p) rfl (by rw [popTx])
        exact runPool_step_sublist rest p (popTx p) tx hd hs ih hheads htx hinv
          hpop.1 (by rw [hpop.2.1]; exact List.nil_sublist _) hpop.2.2 a
      | shiftOp =>
        have hrun : runPool p (.shiftOp :: rest) = tx :: runPool (shift p) rest := by
          rw [show runPool p (.shiftOp :: rest) =
            (match peek p with
              | none => []
              | some tx => tx :: runPool (shift p) rest) from rfl, hpk]
        rw [hrun]
        rcases hget : mapGet p.txs hd.sender with _ | ⟨_ | ⟨t, r⟩⟩
        · have hshape : shift p =
              { txs := p.txs
                heads := heapPopList txsByPriceLess dvHead (hd :: hs) } := by
            conv_lhs => rw [show p = { txs := p.txs, heads := hd :: hs } by
              rw [← hheads]]
            rw [shift_cons, hsendhd, hget]
          have hpop := popHead_inv p hd hs hinv hheads (shift p)
            (by rw [hshape]) (by rw [hshape, hheads])
          exact runPool_step_sublist rest p (shift p) tx hd hs ih hheads htx hinv
            hpop.1 (by rw [hpop.2.1]; exact List.nil_sublist _) hpop.2.2 a
        · have hshape : shift p =
              { txs := p.txs
                heads := heapPopList txsByPriceLess dvHead (hd :: hs) } := by
            conv_lhs => rw [show p = { txs := p.txs, heads := hd :: hs } by
              rw [← hheads]]
            rw [shift_cons, hsendhd, hget]
          have hpop := popHead_inv p hd hs hinv hheads (shift p)
            (by rw [hshape]) (by rw [hshape, hheads])
          exact runPool_step_sublist rest p (shift p) tx hd hs ih hheads htx hinv
            hpop.1 (by rw [hpop.2.1]; exact List.nil_sublist _) hpop.2.2 a
        · have hA := shift_inv_A p hd hs t r hinv hheads hget
          exact runPool_step_sublist rest p (shift p) tx hd hs ih hheads htx hinv
            hA.1 (by rw [hA.2.1, hget]; exact List.Sublist.refl _) hA.2.2 a

theorem trace_nodup (tr : List TxC3)
    (h : ∀ a, NonceAsc (tr.filter (fun t => decide (t.sender = a)))) :
    tr.Nodup := by
  induction tr with
  | nil => exact List.nodup_nil
  | cons t r ih =>
    rw [List.nodup_cons]
    constructor
    · intro hmem
      have h2 := h t.sender
      rw [List.filter_cons, if_pos (by simp)] at h2
      have hm2 : t ∈ r.filter (fun x => decide (x.sender = t.sender)) :=
        List.mem_filter.mpr ⟨hmem, by simp⟩
      have := (List.pairwise_cons.mp h2).1 t hm2
      omega
    · apply ih
      intro a
      have h2 := h a
      by_cases hta : t.sender = a
      · rw [List.filter_cons, if_pos (by simpa using hta)] at h2
        exact (List.pairwise_cons.mp h2).2
      · rw [List.filter_cons, if_neg (by simpa using hta)] at h2
        exact h2

/-- C3: for every sender-keyed map of nonempty, sender-correct, strictly
nonce-ascending transaction lists handed to the ordering heap, and every
interleaving of Shift and Pop, the transaction sequence observed at Peek
emits each sender's transactions in strictly ascending nonce order and never
emits the same transaction twice. -/
theorem mempool_nonce_order (m : List (Addr × List TxC3)) (ops : List PoolOp)
    (hkeys : (m.map (fun e => e.1)).Nodup)
    (hne : ∀ e ∈ m, e.2 ≠ [])
    (hsend : ∀ e ∈ m, ∀ t ∈ e.2, t.sender = e.1)
    (hasc : ∀ e ∈ m, NonceAsc e.2) :
    (∀ a, NonceAsc ((runPool (newTxSet m) ops).filter
        (fun t => decide (t.sender = a)))) ∧
      (runPool (newTxSet m) ops).Nodup := by
  have hinv := newTxSet_inv m hkeys hne hsend hasc
  have hmain : ∀ a, NonceAsc ((runPool (newTxSet m) ops).filter
      (fun t => decide (t.sender = a))) := by
    intro a
    have hsub := runPool_filter_sublist ops (newTxSet m) hinv a
    exact List.Pairwise.sublist hsub (nonceAsc_streamOfSender (newTxSet m) hinv a)
  exact ⟨hmain, trace_nodup _ hmain⟩

/-- A concrete sender map for the C3 witness: sender 1 with nonces 0,1 and
sender 2 with nonce 0. -/
def mC3 : List (Addr × List TxC3) :=
  [(1, [{ sender := 1, nonce := 0, vd := 5 }, { sender := 1, nonce := 1, vd := 3 }]),
   (2, [{ sender := 2, nonce := 0, vd := 4 }])]

/-- C3 witness: the mempool ordering theorem at a concrete map and a
concrete Shift/Pop interleaving. -/
theorem mempool_nonce_order_witness :
    (∀ a, NonceAsc ((runPool (newTxSet mC3)
        [.shiftOp, .shiftOp, .popOp, .shiftOp]).filter
        (fun t => decide (t.sender = a)))) ∧
      (runPool (newTxSet mC3) [.shiftOp, .shiftOp, .popOp, .shiftOp]).Nodup :=
  mempool_nonce_order mC3 [.shiftOp, .shiftOp, .popOp, .shiftOp]
    (by decide) (by decide) (by decide)
    (by intro e he; rw [NonceAsc]; fin_cases he <;> decide)

end Ebakus
